import Mathlib

/-!
Shallow embedding of `guild/file_util.py`: the rule-based file-selection and
tree-synchronization engine (FileSelectRule, FileSelect, copytree, files_digest).

Conventions of the embedding:
* The host platform is POSIX, so `os.path.sep = "/"`.  Functions that replace
  the native separator with `"/"` (or vice versa) are therefore identities.
* Filesystem queries made by the code (`util.safe_is_text_file`,
  `util.safe_filesize`, `os.path.isdir`, `glob.glob`, file contents, the
  outcome of `shutil.copyfile`) are supplied by an oracle structure `FS`;
  the code under verification treats them as external collaborators.
* Python `None` becomes `Option.none`; a fallible byte count becomes
  `Option Nat`; machine-level hashing (`hashlib.md5`) is kept abstract and the
  digest is analysed at the level of the byte stream fed into it.
* Mutable state (each rule's `_matches` counter, in-place mutation of the
  `dirs` list by `prune_dirs`) is made explicit: functions return the updated
  rule list / directory list alongside their result.
-/

/-! ### String ordering (Python `sorted` on str compares code points) -/

/-- Lexicographic `≤` on char lists by code point, the order Python's `sorted`
uses for strings. -/
def charListLe : List Char → List Char → Bool
  | [], _ => true
  | _ :: _, [] => false
  | a :: as, b :: bs => if a = b then charListLe as bs else decide (a < b)

/-- Lexicographic `≤` on strings by code point. -/
def strLe (a b : String) : Bool := charListLe a.data b.data

/-- Python `sorted` on a list of strings (code-point lexicographic order). -/
def sortStrings (l : List String) : List String :=
  List.insertionSort (fun a b => strLe a b = true) l

/-! ### POSIX path helpers (`os.path` on a POSIX host) -/

/-- Embedding of `os.path.join(a, b)` (posixpath, two arguments). -/
def os_path_join (a b : String) : String :=
  if b.data.head? = some '/' then b
  else if a.data = [] || a.data.getLast? = some '/' then a ++ b
  else a ++ "/" ++ b

/-- Embedding of `os.path.basename` on POSIX: the part after the last `"/"`. -/
def os_path_basename (p : String) : String :=
  String.mk ((p.data.reverse.takeWhile (fun c => c ≠ '/')).reverse)

/-- Embedding of `_strip_leading_path_sep`: drop leading separator characters
from a pattern. -/
def _strip_leading_path_sep (p : String) : String :=
  String.mk (p.data.dropWhile (fun c => c = '/'))

/-- Relative paths produced by the tree walk, kept as a list of path segments;
`renderSegs` is the string form the code passes around (`os.path.join` of the
segments, with the empty list rendering as `""` exactly like `_relpath(src,
src)`). -/
def renderSegs (segs : List String) : String := String.intercalate "/" segs

/-- Embedding of `_native_paths`: replaces `"/"` in each pattern by
`os.path.sep`; on POSIX this is the identity. -/
def _native_paths (patterns : List String) : List String := patterns

/-! ### Glob matching (`fnmatch.fnmatch` on a POSIX host)

Python translates a glob pattern to a regular expression (`*` to `.*`, `?` to
`.`, `[seq]` / `[!seq]` to a character class, an unterminated `[` to a literal
`[`) and tests the whole path against it.  The recursive matcher below
implements exactly that full-match semantics; `fnmatchGo` carries a fuel
argument so that it is structurally recursive (every step consumes at least
one pattern or subject character, so fuel `p.length + s.length + 1` always
suffices). -/

/-- Membership of a char in the body of a glob character class: `a-b` is a
range, anything else is a literal member. -/
def classHasChar : List Char → Char → Bool
  | a :: '-' :: b :: rest, c =>
    (decide (a ≤ c) && decide (c ≤ b)) || classHasChar rest c
  | a :: rest, c => (a = c) || classHasChar rest c
  | [], _ => false

/-- Splits a glob character class at the first unconsumed `]`; `none` when the
class is unterminated. -/
def splitClass (acc : List Char) : List Char → Option (List Char × List Char)
  | [] => none
  | ']' :: rest => some (acc.reverse, rest)
  | c :: rest => splitClass (c :: acc) rest

/-- Parses `[...]` content following the `[`: an optional leading `!` negates,
a `]` right after that is a literal member, then everything up to the closing
`]` is the class body.  Returns `(negated, body, rest-of-pattern)`, or `none`
when there is no closing `]` (in which case Python treats `[` as a literal
character). -/
def parseClass (ps : List Char) : Option (Bool × List Char × List Char) :=
  let step : Bool × List Char → Option (Bool × List Char × List Char) :=
    fun arg =>
      match arg.2 with
      | ']' :: t =>
        match splitClass [] t with
        | some (cls, rest) => some (arg.1, ']' :: cls, rest)
        | none => none
      | other =>
        match splitClass [] other with
        | some (cls, rest) => some (arg.1, cls, rest)
        | none => none
  match ps with
  | '!' :: t => step (true, t)
  | _ => step (false, ps)

/-- Fuel-indexed glob matcher: `fnmatchGo fuel pattern subject`. -/
def fnmatchGo : Nat → List Char → List Char → Bool
  | 0, _, _ => false
  | _ + 1, [], [] => true
  | fuel + 1, '*' :: ps, [] => fnmatchGo fuel ps []
  | fuel + 1, '*' :: ps, c :: cs =>
    fnmatchGo fuel ps (c :: cs) || fnmatchGo fuel ('*' :: ps) cs
  | fuel + 1, '?' :: ps, _ :: cs => fnmatchGo fuel ps cs
  | fuel + 1, '[' :: ps, s =>
    (match parseClass ps, s with
     | some (neg, cls, rest), c :: cs =>
       (classHasChar cls c != neg) && fnmatchGo fuel rest cs
     | some _, [] => false
     | none, c :: cs => (c = '[') && fnmatchGo fuel ps cs
     | none, [] => false)
  | fuel + 1, p :: ps, c :: cs => (p = c) && fnmatchGo fuel ps cs
  | _ + 1, _ :: _, [] => false
  | _ + 1, [], _ :: _ => false

/-- Embedding of `fnmatch.fnmatch(path, pattern)` on POSIX (`normcase` is the
identity): full match of the whole subject against the glob pattern. -/
def fnmatch_fnmatch (path pattern : String) : Bool :=
  fnmatchGo (pattern.data.length + path.data.length + 1) pattern.data path.data

/-- Embedding of `_fnmatch(path, pattern)`: a pattern with no separator is
matched against the basename only; leading separators are stripped from the
pattern. -/
def _fnmatch (path pattern : String) : Bool :=
  let path := if pattern.data.contains '/' then path else os_path_basename path
  let pattern := _strip_leading_path_sep pattern
  fnmatch_fnmatch path pattern

/-! ### Regular expressions (`re` module, regular fragment)

Compiled patterns are modelled as a regular-expression AST; matching is by
Brzozowski derivatives, which agrees with Python's backtracking engine on the
pure regular fragment.  Python's `pattern.match(s)` is truthy iff the
expression matches at the start of `s`, i.e. iff it accepts some prefix of
`s` (not necessarily all of it); `re.fullmatch` requires the whole string. -/

inductive Regex where
  | fail
  | eps
  | char (c : Char)
  | any
  | seq (a b : Regex)
  | alt (a b : Regex)
  | star (a : Regex)
deriving DecidableEq, Repr

/-- Nullability: does the expression accept the empty string. -/
def Regex.nullable : Regex → Bool
  | .fail => false
  | .eps => true
  | .char _ => false
  | .any => false
  | .seq a b => a.nullable && b.nullable
  | .alt a b => a.nullable || b.nullable
  | .star _ => true

/-- Brzozowski derivative of a regular expression by one character. -/
def Regex.deriv : Regex → Char → Regex
  | .fail, _ => .fail
  | .eps, _ => .fail
  | .char d, c => if c = d then .eps else .fail
  | .any, _ => .eps
  | .seq a b, c =>
    if a.nullable then .alt (.seq (a.deriv c) b) (b.deriv c) else .seq (a.deriv c) b
  | .alt a b, c => .alt (a.deriv c) (b.deriv c)
  | .star a, c => .seq (a.deriv c) (.star a)

/-- Whole-string acceptance (the semantics of `re.fullmatch`). -/
def Regex.accepts (r : Regex) (s : List Char) : Bool :=
  (s.foldl Regex.deriv r).nullable

/-- Truthiness of `pattern.match(s)` for a compiled pattern: the expression
accepts some prefix of `s` (Python's `match` anchors at the start of the
string but not at its end). -/
def Regex.matchAtStart (r : Regex) (s : List Char) : Bool :=
  s.inits.any (fun t => r.accepts t)

/-- Modelled from the spec: `util.stdpath` (defined in `guild/util.py`, which
is not included under `src/`) returns the path with OS-native separators
replaced by forward slashes; under this embedding's POSIX convention the
separator already is `"/"`, so it is the identity. -/
def stdpath (p : String) : String := p

/-! ### The filesystem / collaborator oracle -/

/-- Oracle bundling every external query the engine makes.  `safe_filesize`
returns `none` when the size cannot be read (`util.safe_filesize` swallows the
error); `copy_errno` gives the `errno` of the `IOError`/`OSError` raised by
`shutil.copyfile`/`copymode` for a source path, or `none` when the copy
succeeds. -/
structure FS where
  is_text_file : String → Bool
  safe_filesize : String → Option Nat
  isdir : String → Bool
  sentinel_glob : String → String → Bool
  file_bytes : String → List Nat
  copy_errno : String → Option Nat

/-! ### FileSelectRule -/

/-- The validated `type` attribute of a rule (`_validate_type` rejects
anything besides `"text"`, `"binary"`, `"dir"` or `None` at construction, so
only these values are representable). -/
inductive RuleType where
  | text
  | binary
  | dir
deriving DecidableEq, Repr

/-- Patterns of a rule. In glob mode the pattern strings are kept (after
`_native_paths`, the identity on POSIX); in regex mode the compiled
expressions are kept.  A regex-mode rule's pattern list never contains the
bare string `"*"`, since `re.compile("*")` fails at rule construction. -/
inductive RulePatterns where
  | globs (pats : List String)
  | regexes (pats : List Regex)
deriving DecidableEq, Repr

/-- Embedding of `FileSelectRule`.  `_matches` is the mutable match counter
(initially 0). -/
structure FileSelectRule where
  result : Bool
  patterns : RulePatterns
  type : Option RuleType := none
  sentinel : Option String := none
  size_gt : Option Nat := none
  size_lt : Option Nat := none
  max_matches : Option Nat := none
  _matches : Nat := 0
deriving DecidableEq, Repr

/-- Embedding of the `include(patterns, **kw)` helper restricted to glob
patterns: a rule with `result = True`. -/
def includeRule (pats : List String) : FileSelectRule :=
  { result := true, patterns := RulePatterns.globs (_native_paths pats) }

/-- Embedding of the `exclude(patterns, **kw)` helper restricted to glob
patterns: a rule with `result = False`. -/
def excludeRule (pats : List String) : FileSelectRule :=
  { result := false, patterns := RulePatterns.globs (_native_paths pats) }

/-- Identifiers of the four checks of `FileSelectRule.test` (the `name` field
of the `FileSelectTest` objects). -/
inductive FileSelectTestName where
  | max_matches
  | pattern
  | type
  | size
deriving DecidableEq, Repr

/-- Embedding of `FileSelectRule._patterns_match` (built by
`_patterns_match_f`): glob mode delegates each pattern to `_fnmatch`, regex
mode tests `pattern.match(util.stdpath(path))`. -/
def _patterns_match (r : FileSelectRule) (path : String) : Bool :=
  match r.patterns with
  | RulePatterns.globs pats => pats.any (fun p => _fnmatch path p)
  | RulePatterns.regexes pats =>
    pats.any (fun p => p.matchAtStart (stdpath path).data)

/-- Embedding of `FileSelectRule._test_max_matches`. -/
def _test_max_matches (r : FileSelectRule) : Bool :=
  match r.max_matches with
  | none => true
  | some m => decide (r._matches < m)

/-- Embedding of `FileSelectRule._test_patterns`. -/
def _test_patterns (r : FileSelectRule) (path : String) : Bool :=
  _patterns_match r path

/-- Embedding of `FileSelectRule._test_dir`: the path must be an existing
directory and, when a (truthy, i.e. nonempty) sentinel is set, the sentinel
glob must match something inside it. -/
def _test_dir (fs : FS) (r : FileSelectRule) (path : String) : Bool :=
  if !(fs.isdir path) then false
  else
    match r.sentinel with
    | none => true
    | some s => if s.data = [] then true else fs.sentinel_glob path s

/-- Embedding of `FileSelectRule._test_type`. -/
def _test_type (fs : FS) (r : FileSelectRule) (path : String) : Bool :=
  match r.type with
  | none => true
  | some RuleType.text => fs.is_text_file path
  | some RuleType.binary => !(fs.is_text_file path)
  | some RuleType.dir => _test_dir fs r path

/-- Embedding of `FileSelectRule._test_size`.  With both bounds unset the
check passes; an unreadable size passes; otherwise the check passes iff a
truthy (nonzero) `size_gt` is strictly exceeded or the size is strictly below
a truthy (nonzero) `size_lt` (the two conditions are combined with `or`). -/
def _test_size (fs : FS) (r : FileSelectRule) (path : String) : Bool :=
  match r.size_gt, r.size_lt with
  | none, none => true
  | _, _ =>
    match fs.safe_filesize path with
    | none => true
    | some size =>
      (match r.size_gt with
       | some g => decide (0 < g) && decide (g < size)
       | none => false) ||
      (match r.size_lt with
       | some l => decide (0 < l) && decide (size < l)
       | none => false)

/-- Embedding of `FileSelectRule.test`: the four checks run in their fixed
order; the first failing check short-circuits with `(None, check-name)` and
leaves the rule untouched; when all pass the `_matches` counter increments and
the rule's configured result is returned. -/
def FileSelectRule.test (fs : FS) (r : FileSelectRule) (src_root relpath : String) :
    (Option Bool × Option FileSelectTestName) × FileSelectRule :=
  let fullpath := os_path_join src_root relpath
  if !(_test_max_matches r) then ((none, some FileSelectTestName.max_matches), r)
  else if !(_test_patterns r relpath) then ((none, some FileSelectTestName.pattern), r)
  else if !(_test_type fs r fullpath) then ((none, some FileSelectTestName.type), r)
  else if !(_test_size fs r fullpath) then ((none, some FileSelectTestName.size), r)
  else ((some r.result, none), { r with _matches := r._matches + 1 })

/-! ### FileSelect: select_file, prune_dirs, disabled -/

/-- One entry of the diagnostics list built by `select_file`: the pair
`(rule.test(...), rule)` with the rule in its post-test state. -/
abbrev RuleResult := (Option Bool × Option FileSelectTestName) × FileSelectRule

/-- The list comprehension of `FileSelect.select_file`: apply `test` to every
rule whose type is not `"dir"`, in declared order, returning the diagnostics
list and the full updated rule list (directory rules pass through
unchanged). -/
def select_file_rules (fs : FS) (src_root relpath : String) :
    List FileSelectRule → List RuleResult × List FileSelectRule
  | [] => ([], [])
  | r :: rest =>
    if r.type = some RuleType.dir then
      let (results, rest') := select_file_rules fs src_root relpath rest
      (results, r :: rest')
    else
      let (tr, r') := FileSelectRule.test fs r src_root relpath
      let (results, rest') := select_file_rules fs src_root relpath rest
      ((tr, r') :: results, r' :: rest')

/-- Embedding of `reduce_file_select_results`: the last entry whose result is
not `None` determines the reduced result; otherwise `(None, None)`. -/
def reduce_file_select_results (results : List RuleResult) :
    Option Bool × Option FileSelectTestName :=
  match results.reverse.find? (fun pr => pr.1.1.isSome) with
  | some pr => pr.1
  | none => (none, none)

/-- Embedding of `FileSelect.select_file`: all non-directory rules are tested;
the file is selected iff the reduced result `is True`.  Returns
`((selected, diagnostics), updated rules)`. -/
def FileSelect.select_file (fs : FS) (rules : List FileSelectRule)
    (src_root relpath : String) :
    (Bool × List RuleResult) × List FileSelectRule :=
  let (rule_results, rules') := select_file_rules fs src_root relpath rules
  ((decide ((reduce_file_select_results rule_results).1 = some true), rule_results), rules')

/-- Inner loop of `FileSelect.prune_dirs` over the rule list: only rules of
type `"dir"` are tested; the accumulator keeps the last non-`None` test
result. -/
def dir_rules_last (fs : FS) (src_root relpath : String) :
    List FileSelectRule → Option Bool → Option Bool × List FileSelectRule
  | [], last => (last, [])
  | r :: rest, last =>
    if r.type ≠ some RuleType.dir then
      let (l, rest') := dir_rules_last fs src_root relpath rest last
      (l, r :: rest')
    else
      let (tr, r') := FileSelectRule.test fs r src_root relpath
      let last' := match tr.1 with
        | some b => some b
        | none => last
      let (l, rest') := dir_rules_last fs src_root relpath rest last'
      (l, r' :: rest')

/-- Outer loop of `FileSelect.prune_dirs` over `sorted(dirs)`: a name whose
last directory-rule result `is False` is appended to `pruned` and removed
(first occurrence, like Python `list.remove`) from `dirs`. -/
def prune_dirs_go (fs : FS) (src_root relroot : String) :
    List String → List String → List FileSelectRule → List String →
    List String × List String × List FileSelectRule
  | [], dirs, rules, pruned => (pruned.reverse, dirs, rules)
  | name :: rest, dirs, rules, pruned =>
    let relpath := os_path_join relroot name
    let (last, rules') := dir_rules_last fs src_root relpath rules none
    if last = some false then
      prune_dirs_go fs src_root relroot rest (dirs.erase name) rules' (name :: pruned)
    else
      prune_dirs_go fs src_root relroot rest dirs rules' pruned

/-- Embedding of `FileSelect.prune_dirs`: returns the pruned names, the
remaining `dirs` list (after in-place removal) and the updated rules. -/
def FileSelect.prune_dirs (fs : FS) (src_root relroot : String)
    (dirs : List String) (rules : List FileSelectRule) :
    List String × List String × List FileSelectRule :=
  prune_dirs_go fs src_root relroot (sortStrings dirs) dirs rules []

/-- Does the rule's stored pattern list contain the bare string `"*"`
(the `"*" in rule.patterns` test of `_init_disabled`)?  Regex-mode rules never
do, since `re.compile("*")` fails at construction. -/
def patternsContainStar (r : FileSelectRule) : Bool :=
  match r.patterns with
  | RulePatterns.globs pats => pats.contains "*"
  | RulePatterns.regexes _ => false

/-- Forward scan of `FileSelect._init_disabled`: any rule with a truthy
result resets `disabled`; an untyped rule whose patterns contain `"*"` (and
whose result is falsy) sets it. -/
def _init_disabled_scan (disabled : Bool) : List FileSelectRule → Bool
  | [] => disabled
  | r :: rest =>
    _init_disabled_scan
      (if r.result then false
       else if patternsContainStar r && r.type = none then true
       else disabled)
      rest

/-- Embedding of `FileSelect`: the optional root and the ordered rule list. -/
structure FileSelect where
  root : Option String := none
  rules : List FileSelectRule

/-- Embedding of the (lazily cached) `FileSelect.disabled` property, i.e.
`_init_disabled` starting from `False`. -/
def FileSelect.disabled (s : FileSelect) : Bool :=
  _init_disabled_scan false s.rules


/-! ### The filesystem tree seen by `os.walk` and the copy driver -/

/-- Directory tree as enumerated by `os.walk`: each node lists its child
directories (name and subtree) and its file names. -/
inductive FTree where
  | node (dirs : List (String × FTree)) (files : List String)
deriving Repr

mutual

/-- Number of tree nodes, used as the termination measure of the walk. -/
def FTree.size : FTree → Nat
  | FTree.node dirs _ => 1 + sizeDirs dirs

/-- Total size of a directory listing. -/
def sizeDirs : List (String × FTree) → Nat
  | [] => 0
  | (_, t) :: rest => 1 + FTree.size t + sizeDirs rest

end

/-- Handler callbacks fired by `_copytree_impl` (`copy_handler.copy` /
`copy_handler.ignore`), recorded with the relative path of the file as its
segment list (the string the code passes is `renderSegs segs`).  A `copy`
event records that the handler's `copy` callback was invoked; when the copy
fails the walk additionally ends with the propagated errno. -/
inductive CopyEvent where
  | copy (segs : List String)
  | ignore (segs : List String)
deriving DecidableEq, Repr

/-- Result of a walk: the handler events in order, the relative paths passed
to `select_file`, the relative paths tested by directory rules in
`prune_dirs`, the relative paths of the directories `prune_dirs` pruned, the
final rule states, and the propagated copy error, if any. -/
structure WalkOut where
  events : List CopyEvent
  select_calls : List (List String)
  tested_dirs : List (List String)
  pruned_dirs : List (List String)
  rules : List FileSelectRule
  err : Option Nat
deriving DecidableEq, Repr

/-- Embedding of `FileCopyHandler._try_copy_file` for the default handler with
an overridable `handle_copy_error` hook: a missing source (`errno == 2`) is
silently tolerated; any other error is offered to the hook and propagates
(returned errno) iff the hook does not claim it.  (In Python 3 `IOError` is
`OSError`, so the first `except` clause handles every `OSError`.) -/
def _try_copy_file (hook : Nat → Bool) (copy_result : Option Nat) : Option Nat :=
  match copy_result with
  | none => none
  | some errno => if errno = 2 then none else if hook errno then none else some errno

/-- Sort a directory listing by name (the in-place `dirs.sort()` of
`_copytree_impl` followed by `os.walk`'s descent order). -/
def sortPairs (l : List (String × FTree)) : List (String × FTree) :=
  List.insertionSort (fun a b => strLe a.1 b.1 = true) l

/-- The per-directory file loop of `_copytree_impl`: for each file name (the
caller passes them sorted), a path in the `ignore` set is reported ignored
without rule evaluation; otherwise `select_file` decides, the handler's `copy`
or `ignore` callback fires, and a copy error that `_try_copy_file` propagates
aborts the rest of the walk. -/
def process_files (fs : FS) (hook : Nat → Bool) (src : String)
    (ignore : List String) (rsegs : List String) :
    List String → List FileSelectRule → WalkOut
  | [], rules => ⟨[], [], [], [], rules, none⟩
  | name :: rest, rules =>
    let relpath := os_path_join (renderSegs rsegs) name
    let segs := rsegs ++ [name]
    if ignore.contains relpath then
      let out := process_files fs hook src ignore rsegs rest rules
      ⟨CopyEvent.ignore segs :: out.events, out.select_calls, out.tested_dirs,
       [], out.rules, out.err⟩
    else
      let sel := FileSelect.select_file fs rules src relpath
      if sel.1.1 then
        match _try_copy_file hook (fs.copy_errno (os_path_join src relpath)) with
        | none =>
          let out := process_files fs hook src ignore rsegs rest sel.2
          ⟨CopyEvent.copy segs :: out.events, segs :: out.select_calls,
           out.tested_dirs, [], out.rules, out.err⟩
        | some e => ⟨[CopyEvent.copy segs], [segs], [], [], sel.2, some e⟩
      else
        let out := process_files fs hook src ignore rsegs rest sel.2
        ⟨CopyEvent.ignore segs :: out.events, segs :: out.select_calls,
         out.tested_dirs, [], out.rules, out.err⟩

/-- Measure for the walk: total tree size remaining on the work stack. -/
def stackMeasure (st : List (List String × FTree)) : Nat :=
  (st.map (fun p => FTree.size p.2)).sum

/-- The recursive traversal of `_copytree_impl` over `os.walk`, written with
an explicit depth-first work stack: the head entry's directory level is
processed (sort the child names, prune, fire `ignore` for pruned names, run
the file loop), then its surviving children are walked in sorted order,
followed by the rest of the stack.  A propagated copy error aborts everything
that remains, exactly as the Python exception unwinds the `os.walk` loop.
Directory listings of a real filesystem have no duplicate names; for such
trees the erase-based `prune_dirs` bookkeeping and the filter below agree
with the in-place mutation in the source. -/
def copytree_walk (fs : FS) (hook : Nat → Bool) (src : String)
    (ignore : List String) :
    List (List String × FTree) → List FileSelectRule → WalkOut
  | [], rules => ⟨[], [], [], [], rules, none⟩
  | (rsegs, FTree.node dirs files) :: rest, rules =>
    let relroot := renderSegs rsegs
    let dnames := sortStrings (dirs.map Prod.fst)
    let pr := FileSelect.prune_dirs fs src relroot dnames rules
    let tested :=
      if rules.any (fun r => r.type = some RuleType.dir) then
        dnames.map (fun n => rsegs ++ [n])
      else []
    let prunedSegs := pr.1.map (fun n => rsegs ++ [n])
    let prunedEvents := prunedSegs.map CopyEvent.ignore
    let fout := process_files fs hook src ignore rsegs (sortStrings files) pr.2.2
    match fout.err with
    | some e =>
      ⟨prunedEvents ++ fout.events, fout.select_calls, tested, prunedSegs,
       fout.rules, some e⟩
    | none =>
      let children :=
        ((sortPairs dirs).filter (fun p => pr.2.1.contains p.1)).map
          (fun p => (rsegs ++ [p.1], p.2))
      let rout := copytree_walk fs hook src ignore (children ++ rest) fout.rules
      ⟨prunedEvents ++ fout.events ++ rout.events,
       fout.select_calls ++ rout.select_calls,
       tested ++ rout.tested_dirs, prunedSegs ++ rout.pruned_dirs,
       rout.rules, rout.err⟩
termination_by st _ => stackMeasure st
decreasing_by
  simp only [stackMeasure, List.map_append, List.sum_append, List.map_cons,
    List.sum_cons, List.map_map, Function.comp_def]
  have key : ∀ l : List (String × FTree),
      ((l.map (fun p => FTree.size p.2)).sum) ≤ sizeDirs l := by
    intro l
    induction l with
    | nil => simp [sizeDirs]
    | cons x xs ih =>
      obtain ⟨n, t⟩ := x
      simp only [List.map_cons, List.sum_cons, sizeDirs]
      omega
  have hperm : ∀ l : List (String × FTree),
      (((sortPairs l).map (fun p => FTree.size p.2)).sum) =
        ((l.map (fun p => FTree.size p.2)).sum) := by
    intro l
    exact List.Perm.sum_eq (List.Perm.map _ (List.perm_insertionSort _ l))
  have hsub : ∀ (q : String × FTree → Bool) (l : List (String × FTree)),
      (((l.filter q).map (fun p => FTree.size p.2)).sum) ≤
        ((l.map (fun p => FTree.size p.2)).sum) := by
    intro q l
    exact List.Sublist.sum_le_sum
      (List.Sublist.map _ (List.filter_sublist _)) (by simp)
  have h1 := hsub (fun p => (FileSelect.prune_dirs fs src (renderSegs rsegs)
    (sortStrings (List.map Prod.fst dirs)) rules).2.1.contains p.1) (sortPairs dirs)
  have h2 := hperm dirs
  have h3 := key dirs
  have h4 : FTree.size (FTree.node dirs files) = 1 + sizeDirs dirs := by
    rw [FTree.size]
  omega

/-- Embedding of `_copytree_impl`: when the file select is disabled the walk
returns immediately and no handler callback ever fires; otherwise the tree is
walked depth-first from the source root. -/
def _copytree_impl (fs : FS) (hook : Nat → Bool) (src : String)
    (ignore : List String) (sel : FileSelect) (tree : FTree) : WalkOut :=
  if sel.disabled then ⟨[], [], [], [], sel.rules, none⟩
  else copytree_walk fs hook src ignore [([], tree)] sel.rules

/-! ### files_digest

`files_digest` feeds, for each path in order, the UTF-8 bytes of the
`/`-normalized path, one NUL byte, the file's bytes (`_apply_digest_file_bytes`
streams the file in 1 MiB chunks into the hash, which is equivalent to feeding
the whole content), and a second NUL byte into one running MD5.  The MD5
primitive itself (`hashlib`) is outside the repository; the embedding exposes
the exact byte stream fed to it and keeps the compression function abstract. -/

/-- UTF-8 encoding of one character (the value-level content of
`String.utf8EncodeChar` / Python `str.encode("UTF-8")`). -/
def encodeChar (c : Char) : List Nat :=
  if c.toNat < 0x80 then [c.toNat]
  else if c.toNat < 0x800 then
    [0xC0 + c.toNat / 0x40, 0x80 + c.toNat % 0x40]
  else if c.toNat < 0x10000 then
    [0xE0 + c.toNat / 0x1000, 0x80 + c.toNat / 0x40 % 0x40,
     0x80 + c.toNat % 0x40]
  else
    [0xF0 + c.toNat / 0x40000, 0x80 + c.toNat / 0x1000 % 0x40,
     0x80 + c.toNat / 0x40 % 0x40, 0x80 + c.toNat % 0x40]

/-- UTF-8 encoding of a string, as a byte list. -/
def encodeUtf8 (s : String) : List Nat :=
  (s.data.map encodeChar).flatten

/-- Embedding of `_path_for_digest`: replaces `os.path.sep` by `"/"`; the
identity on POSIX. -/
def _path_for_digest (p : String) : String := p

/-- Embedding of `_encode_file_path_for_digest`: the UTF-8 bytes of the
path. -/
def _encode_file_path_for_digest (p : String) : List Nat := encodeUtf8 p

/-- The bytes contributed to the digest by one path: encoded normalized path,
NUL, file content (of `os.path.join(root_dir, path)`), NUL. -/
def digest_entry (fs : FS) (root_dir path : String) : List Nat :=
  _encode_file_path_for_digest (_path_for_digest path) ++ [0] ++
    fs.file_bytes (os_path_join root_dir path) ++ [0]

/-- The full byte stream `files_digest` feeds into the running MD5, in
order. -/
def files_digest_stream (fs : FS) (paths : List String) (root_dir : String) :
    List Nat :=
  (paths.map (digest_entry fs root_dir)).flatten

/-- Embedding of `files_digest`, with the MD5 hex-digest primitive abstracted
as a function of the byte stream fed into it. -/
def files_digest (md5hex : List Nat → String) (fs : FS) (paths : List String)
    (root_dir : String) : String :=
  md5hex (files_digest_stream fs paths root_dir)

/-! ### Definitions taken from the spec's words, for comparison with the code

Each of the following definitions follows the specification text (not the
source); theorems below compare them with the corresponding source
definitions. -/

/-- Spec's reading of the size check (section 4.1, check 4): "the entry's
byte size must satisfy all set bounds strictly", with an unreadable size
passing whenever a bound is set. -/
def size_check_spec (r : FileSelectRule) (size : Option Nat) : Bool :=
  match size with
  | none => true
  | some s =>
    (match r.size_gt with
     | some g => decide (g < s)
     | none => true) &&
    (match r.size_lt with
     | some l => decide (s < l)
     | none => true)

/-- Spec's reading of the regex pattern check (section 4.1, check 2): the
whole normalized path must match some pattern (full-match, not search and not
a mere anchored-at-start match). -/
def regex_pattern_check_spec (pats : List Regex) (path : String) : Bool :=
  pats.any (fun p => p.accepts (stdpath path).data)

/-- Spec's reading of the pruning decision (section 4.2): apply only
directory-typed rules, in declared order, and reduce with the same last-wins
reduction used for files. -/
def prune_decision (fs : FS) (src_root relpath : String)
    (rules : List FileSelectRule) : Option Bool :=
  (reduce_file_select_results
    ((rules.filter (fun r => r.type = some RuleType.dir)).map
      (fun r => FileSelectRule.test fs r src_root relpath))).1

/-- Relation between a rule and the same rule with a possibly different match
counter — the only state `test` ever mutates. -/
def bumpedFrom (r r' : FileSelectRule) : Prop :=
  ∃ m, r' = { r with _matches := m }

/-- Spec's reading of the `disabled` invariant (section 3): `disabled` holds
iff some rule is an untyped exclude whose patterns contain `"*"` and no rule
after it is an include (truthy result). -/
def disabled_spec (rules : List FileSelectRule) : Prop :=
  ∃ l1 r l2, rules = l1 ++ r :: l2 ∧
    (r.result = false ∧ patternsContainStar r = true ∧ r.type = none) ∧
    ∀ r' ∈ l2, r'.result = false

/-- Well-formedness of a directory tree as produced by a real filesystem
walk: at every node the child directory names are distinct. -/
def FTree.wfNames : FTree → Prop
  | FTree.node dirs _ =>
    (dirs.map Prod.fst).Nodup ∧ ∀ p ∈ dirs, FTree.wfNames p.2
decreasing_by
  rename_i dirs files hmem
  have h1 : sizeOf p < sizeOf dirs := List.sizeOf_lt_of_mem hmem
  obtain ⟨n, t⟩ := p
  simp only [Prod.mk.sizeOf_spec] at h1
  show sizeOf t < sizeOf (FTree.node dirs files)
  simp only [FTree.node.sizeOf_spec]
  omega

/-! ### Concrete fixtures used by witnesses and counterexamples -/

/-- Oracle with no readable sizes, no directories, no text files, empty file
contents and successful copies. -/
def fsNone : FS :=
  ⟨fun _ => false, fun _ => none, fun _ => false, fun _ _ => false,
   fun _ => [], fun _ => none⟩

/-- Oracle whose every path has readable size 20. -/
def fsSize20 : FS :=
  ⟨fun _ => false, fun _ => some 20, fun _ => false, fun _ _ => false,
   fun _ => [], fun _ => none⟩

/-- Oracle whose every path has readable size 7. -/
def fsSize7 : FS :=
  ⟨fun _ => false, fun _ => some 7, fun _ => false, fun _ _ => false,
   fun _ => [], fun _ => none⟩

/-- Include-everything rule with both size bounds set: `size_gt = 5`,
`size_lt = 10`. -/
def ruleBoth : FileSelectRule :=
  { result := true, patterns := RulePatterns.globs ["*"], size_gt := some 5,
    size_lt := some 10 }

/-- Include-everything rule with `size_gt = 5` only. -/
def ruleGt5 : FileSelectRule :=
  { result := true, patterns := RulePatterns.globs ["*"], size_gt := some 5 }

/-- Include-everything rule with the degenerate bound `size_gt = 0`. -/
def ruleGt0 : FileSelectRule :=
  { result := true, patterns := RulePatterns.globs ["*"], size_gt := some 0 }

/-- Regex-mode include rule whose single compiled pattern is the literal
regular expression `a`. -/
def ruleRegexA : FileSelectRule :=
  { result := true, patterns := RulePatterns.regexes [Regex.char 'a'] }

/-- Rule list for the match-budget scenario: `include("*.txt",
max_matches=1)` followed by `exclude("*")`. -/
def rulesMm : List FileSelectRule :=
  [{ result := true, patterns := RulePatterns.globs ["*.txt"],
     max_matches := some 1 },
   excludeRule ["*"]]

/-- The two-rule example of the spec: `[include("*.txt"),
exclude("secret.txt")]`. -/
def rulesTxt : List FileSelectRule :=
  [includeRule ["*.txt"], excludeRule ["secret.txt"]]

/-- Oracle whose copy of `"b.txt"` raises an error with errno 13 (permission
denied); every other copy succeeds. -/
def fsErr13 : FS :=
  ⟨fun _ => false, fun _ => none, fun _ => false, fun _ _ => false,
   fun _ => [], fun p => if p = "b.txt" then some 13 else none⟩

/-- Oracle whose copy of `"b.txt"` raises an error with errno 2 (file not
found); every other copy succeeds. -/
def fsErr2 : FS :=
  ⟨fun _ => false, fun _ => none, fun _ => false, fun _ _ => false,
   fun _ => [], fun p => if p = "b.txt" then some 2 else none⟩

/-- Oracle where every path is a directory (sizes unreadable, copies
succeed). -/
def fsDirs : FS :=
  ⟨fun _ => false, fun _ => none, fun _ => true, fun _ _ => false,
   fun _ => [], fun _ => none⟩

/-- Rule list with a file-level include and a directory-typed exclude on
`"build"`. -/
def rulesB : List FileSelectRule :=
  [includeRule ["*.txt"],
   { result := false, patterns := RulePatterns.globs ["build"],
     type := some RuleType.dir }]

/-- Small tree with a `build` directory (whose file would match the include
rule) and a `srcd` directory. -/
def treeB : FTree :=
  FTree.node
    [("build", FTree.node [] ["bx.txt"]), ("srcd", FTree.node [] ["a.txt"])]
    ["top.txt"]

/-- Invariant of the walk's work stack: the relative roots of pending
entries are pairwise incomparable (none is a prefix of another), as holds for
the sibling/uncle subtrees still to be visited during a depth-first walk. -/
def stackInv (st : List (List String × FTree)) : Prop :=
  st.Pairwise (fun e1 e2 => ¬ e1.1 <+: e2.1 ∧ ¬ e2.1 <+: e1.1)

/-- Claim C9: a rule constructed with `size_gt = 0` and `size_lt` unset (or
0) fails the size check on every path whose size is readable (the zero bound
is tested for truthiness, not for being set), so such a rule is indeterminate
for every such path; a path with an unreadable size still passes the size
check. -/
theorem c9_zero_size_gt_never_applies (fs : FS) (r : FileSelectRule)
    (src_root relpath : String)
    (hgt : r.size_gt = some 0) (hlt : r.size_lt = none ∨ r.size_lt = some 0)
    (s : Nat)
    (hs : fs.safe_filesize (os_path_join src_root relpath) = some s) :
    _test_size fs r (os_path_join src_root relpath) = false ∧
    (FileSelectRule.test fs r src_root relpath).1.1 = none ∧
    (∀ fs' : FS, fs'.safe_filesize (os_path_join src_root relpath) = none →
      _test_size fs' r (os_path_join src_root relpath) = true) := by
  have hsize : _test_size fs r (os_path_join src_root relpath) = false := by
    rcases hlt with hlt | hlt <;> simp [_test_size, hgt, hlt, hs]
  refine ⟨hsize, ?_, ?_⟩
  · by_cases h1 : _test_max_matches r <;>
      by_cases h2 : _test_patterns r relpath <;>
      by_cases h3 : _test_type fs r (os_path_join src_root relpath) <;>
      simp [FileSelectRule.test, h1, h2, h3, hsize]
  · intro fs' hs'
    rcases hlt with hlt | hlt <;> simp [_test_size, hgt, hlt, hs']

theorem c9_witness :
    _test_size fsSize20 ruleGt0 (os_path_join "" "a") = false ∧
    (FileSelectRule.test fsSize20 ruleGt0 "" "a").1.1 = none ∧
    (∀ fs' : FS, fs'.safe_filesize (os_path_join "" "a") = none →
      _test_size fs' ruleGt0 (os_path_join "" "a") = true) :=
  c9_zero_size_gt_never_applies fsSize20 ruleGt0 "" "a" rfl (Or.inl rfl) 20 rfl

/-- Claim C3 fails as stated: with both bounds set (`size_gt = 5`,
`size_lt = 10`) and a readable size of 20, the code's size check passes even
though the size does not satisfy all set bounds strictly (20 is not below
10) — the two bound conditions are combined with `or`, not `and`. -/
theorem c3_counterexample :
    fsSize20.safe_filesize "p" = some 20 ∧
    _test_size fsSize20 ruleBoth "p" = true ∧
    size_check_spec ruleBoth (fsSize20.safe_filesize "p") = false := by
  decide

/-- Claim C3 amended: when at least one size bound is set, an unreadable size
passes the check, and a readable size `s` passes iff at least one truthy
(nonzero) bound is satisfied strictly: `size_gt` set-and-nonzero with
`size_gt < s`, or `size_lt` set-and-nonzero with `s < size_lt`. -/
theorem c3_size_check (fs : FS) (r : FileSelectRule) (path : String)
    (hset : r.size_gt ≠ none ∨ r.size_lt ≠ none) :
    (fs.safe_filesize path = none → _test_size fs r path = true) ∧
    (∀ s, fs.safe_filesize path = some s →
      (_test_size fs r path = true ↔
        (∃ g, r.size_gt = some g ∧ 0 < g ∧ g < s) ∨
        (∃ l, r.size_lt = some l ∧ 0 < l ∧ s < l))) := by
  rcases hg : r.size_gt with _ | g <;> rcases hl : r.size_lt with _ | l
  · simp [hg, hl] at hset
  · exact ⟨fun h => by simp [_test_size, hg, hl, h],
      fun s hs => by simp [_test_size, hg, hl, hs]⟩
  · exact ⟨fun h => by simp [_test_size, hg, hl, h],
      fun s hs => by simp [_test_size, hg, hl, hs]⟩
  · exact ⟨fun h => by simp [_test_size, hg, hl, h],
      fun s hs => by simp [_test_size, hg, hl, hs]⟩

theorem c3_witness :
    _test_size fsSize7 ruleGt5 "p" = true :=
  ((c3_size_check fsSize7 ruleGt5 "p" (Or.inl (by decide))).2 7 rfl).mpr
    (Or.inl ⟨5, rfl, by decide, by decide⟩)

/-- Claim C4 fails as stated: the code's regex pattern check uses
`pattern.match`, which anchors at the start of the path but not at its end.
For the compiled pattern `a` and the path `"ab"`, the check passes although
the whole normalized path does not match the regular expression. -/
theorem c4_counterexample :
    _test_patterns ruleRegexA "ab" = true ∧
    regex_pattern_check_spec [Regex.char 'a'] "ab" = false := by
  decide

/-- Claim C4 amended: for a regex-mode rule, the pattern check passes iff
some compiled pattern matches a prefix of the forward-slash-normalized path
(match anchored at the start only, per `re.match`), not necessarily the whole
path. -/
theorem c4_regex_match (pats : List Regex) (path : String) (r : FileSelectRule)
    (hr : r.patterns = RulePatterns.regexes pats) :
    _test_patterns r path = true ↔
      ∃ p ∈ pats, ∃ t, t <+: (stdpath path).data ∧ p.accepts t = true := by
  simp [_test_patterns, _patterns_match, hr, Regex.matchAtStart,
    List.any_eq_true, List.mem_inits]

theorem c4_witness :
    ∃ p ∈ [Regex.char 'a'], ∃ t, t <+: (stdpath "ab").data ∧ p.accepts t = true :=
  (c4_regex_match [Regex.char 'a'] "ab" ruleRegexA rfl).mp (by decide)

/-- Claim C5: `test` runs the four checks max-matches, pattern, type, size in
exactly that order, short-circuiting at the first failing check with
`(indeterminate, that check's identifier)` and leaving the rule unchanged;
only when all four pass does the match counter increment and the configured
result return.  Consequently, once a `max_matches = 1` rule's counter has
reached 1, every subsequent test returns indeterminate from the max-matches
check. -/
theorem c5_test_pipeline (fs : FS) (r : FileSelectRule)
    (src_root relpath : String) :
    (_test_max_matches r = false →
      FileSelectRule.test fs r src_root relpath =
        ((none, some FileSelectTestName.max_matches), r)) ∧
    (_test_max_matches r = true → _test_patterns r relpath = false →
      FileSelectRule.test fs r src_root relpath =
        ((none, some FileSelectTestName.pattern), r)) ∧
    (_test_max_matches r = true → _test_patterns r relpath = true →
      _test_type fs r (os_path_join src_root relpath) = false →
      FileSelectRule.test fs r src_root relpath =
        ((none, some FileSelectTestName.type), r)) ∧
    (_test_max_matches r = true → _test_patterns r relpath = true →
      _test_type fs r (os_path_join src_root relpath) = true →
      _test_size fs r (os_path_join src_root relpath) = false →
      FileSelectRule.test fs r src_root relpath =
        ((none, some FileSelectTestName.size), r)) ∧
    (_test_max_matches r = true → _test_patterns r relpath = true →
      _test_type fs r (os_path_join src_root relpath) = true →
      _test_size fs r (os_path_join src_root relpath) = true →
      FileSelectRule.test fs r src_root relpath =
        ((some r.result, none), { r with _matches := r._matches + 1 })) ∧
    (r.max_matches = some 1 → 1 ≤ r._matches →
      FileSelectRule.test fs r src_root relpath =
        ((none, some FileSelectTestName.max_matches), r)) := by
  refine ⟨?_, ?_, ?_, ?_, ?_, ?_⟩
  · intro h1; simp [FileSelectRule.test, h1]
  · intro h1 h2; simp [FileSelectRule.test, h1, h2]
  · intro h1 h2 h3; simp [FileSelectRule.test, h1, h2, h3]
  · intro h1 h2 h3 h4; simp [FileSelectRule.test, h1, h2, h3, h4]
  · intro h1 h2 h3 h4; simp [FileSelectRule.test, h1, h2, h3, h4]
  · intro hm hc
    have h1 : _test_max_matches r = false := by
      simp [_test_max_matches, hm]; omega
    simp [FileSelectRule.test, h1]

theorem c5_witness :
    FileSelectRule.test fsNone
        { result := true, patterns := RulePatterns.globs ["*"],
          max_matches := some 1, _matches := 1 } "" "a" =
      ((none, some FileSelectTestName.max_matches),
        { result := true, patterns := RulePatterns.globs ["*"],
          max_matches := some 1, _matches := 1 }) :=
  (c5_test_pipeline fsNone _ "" "a").2.2.2.2.2 rfl (by decide)

theorem reduce_snoc (l : List RuleResult) (e : RuleResult) :
    reduce_file_select_results (l ++ [e]) =
      if e.1.1.isSome then e.1 else reduce_file_select_results l := by
  by_cases h : e.1.1.isSome <;>
    simp [reduce_file_select_results, List.reverse_append, List.find?_cons, h]

theorem reduce_all_none (results : List RuleResult)
    (h : ∀ pr ∈ results, pr.1.1 = none) :
    reduce_file_select_results results = (none, none) := by
  induction results using List.reverseRecOn with
  | nil => simp [reduce_file_select_results]
  | append_singleton l e ih =>
    have he : e.1.1 = none := h e (by simp)
    rw [reduce_snoc]
    simp only [he, Option.isSome_none, Bool.false_eq_true, if_false]
    exact ih fun pr hpr => h pr (by simp [hpr])

theorem snoc_eq_append_cons {α : Type} (l l1 l2 : List α) (e e' : α)
    (h : l ++ [e] = l1 ++ e' :: l2) :
    (l2 = [] ∧ l1 = l ∧ e' = e) ∨
      (∃ l2', l2 = l2' ++ [e] ∧ l = l1 ++ e' :: l2') := by
  rcases l2.eq_nil_or_concat with rfl | ⟨l2', x, rfl⟩
  · left
    have h' : l ++ [e] = l1 ++ [e'] := by simpa using h
    have := List.append_inj' h' rfl
    simp at this
    exact ⟨rfl, this.1.symm, this.2.symm⟩
  · right
    have h' : l ++ [e] = (l1 ++ e' :: l2') ++ [x] := by
      simpa [List.append_assoc] using h
    have := List.append_inj' h' rfl
    simp at this
    obtain ⟨h1, h2⟩ := this
    exact ⟨l2', by simp [h2], h1⟩

theorem reduce_eq_some_iff (results : List RuleResult) (b : Bool) :
    (reduce_file_select_results results).1 = some b ↔
      ∃ l1 e l2, results = l1 ++ e :: l2 ∧ e.1.1 = some b ∧
        ∀ pr ∈ l2, pr.1.1 = none := by
  induction results using List.reverseRecOn with
  | nil =>
    simp [reduce_file_select_results]
  | append_singleton l e ih =>
    rw [reduce_snoc]
    by_cases h : e.1.1.isSome
    · simp only [h, if_true]
      constructor
      · intro hb
        exact ⟨l, e, [], rfl, hb, by simp⟩
      · rintro ⟨l1, e', l2, hsplit, he', hnone⟩
        rcases snoc_eq_append_cons l l1 l2 e e' hsplit with ⟨_, _, rfl⟩ | ⟨l2', rfl, _⟩
        · exact he'
        · have : e.1.1 = none := hnone e (by simp)
          rw [this] at h
          simp at h
    · have hnone : e.1.1 = none := by
        rcases hh : e.1.1 with _ | v
        · rfl
        · rw [hh] at h; simp at h
      rw [hnone]
      simp only [Option.isSome_none, Bool.false_eq_true, if_false]
      rw [ih]
      constructor
      · rintro ⟨l1, e', l2, rfl, he', hn⟩
        exact ⟨l1, e', l2 ++ [e], by simp, he',
          fun pr hpr => by
            rcases List.mem_append.mp hpr with hpr | hpr
            · exact hn pr hpr
            · simp at hpr; subst hpr; exact hnone⟩
      · rintro ⟨l1, e', l2, hsplit, he', hn⟩
        rcases snoc_eq_append_cons l l1 l2 e e' hsplit with ⟨_, _, rfl⟩ | ⟨l2', rfl, rfl⟩
        · rw [he'] at hnone; simp at hnone
        · exact ⟨l1, e', l2', rfl, he',
            fun pr hpr => hn pr (by simp [hpr])⟩

theorem select_file_rules_spec (fs : FS) (sr rp : String) :
    ∀ rules : List FileSelectRule,
      (select_file_rules fs sr rp rules).1 =
        (rules.filter (fun r => !(r.type = some RuleType.dir))).map
          (fun r => FileSelectRule.test fs r sr rp) ∧
      (select_file_rules fs sr rp rules).2 =
        rules.map (fun r =>
          if r.type = some RuleType.dir then r
          else (FileSelectRule.test fs r sr rp).2) := by
  intro rules
  induction rules with
  | nil => simp [select_file_rules]
  | cons r rest ih =>
    by_cases h : r.type = some RuleType.dir <;>
      simp [select_file_rules, h, ih.1, ih.2, List.filter_cons]

/-- Claim C1: `select_file` applies every non-directory-typed rule in
declared order; the selection decision is the result of the last rule whose
test outcome is non-indeterminate (selected iff that result is an include);
when every rule is indeterminate the file is not selected.  For the rules
`[include("*.txt"), exclude("secret.txt")]`, `"secret.txt"` is excluded and
`"notes.txt"` is included. -/
theorem c1_select_file_last_wins (fs : FS) (rules : List FileSelectRule)
    (src_root relpath : String) :
    ((FileSelect.select_file fs rules src_root relpath).1.2 =
      (rules.filter (fun r => !(r.type = some RuleType.dir))).map
        (fun r => FileSelectRule.test fs r src_root relpath)) ∧
    ((FileSelect.select_file fs rules src_root relpath).1.1 = true ↔
      ∃ l1 e l2,
        (FileSelect.select_file fs rules src_root relpath).1.2 = l1 ++ e :: l2 ∧
        e.1.1 = some true ∧ ∀ pr ∈ l2, pr.1.1 = none) ∧
    (∀ l1 e l2,
      (FileSelect.select_file fs rules src_root relpath).1.2 = l1 ++ e :: l2 →
      e.1.1 = some false → (∀ pr ∈ l2, pr.1.1 = none) →
      (FileSelect.select_file fs rules src_root relpath).1.1 = false) ∧
    ((∀ pr ∈ (FileSelect.select_file fs rules src_root relpath).1.2,
        pr.1.1 = none) →
      (FileSelect.select_file fs rules src_root relpath).1.1 = false) ∧
    (FileSelect.select_file fsNone rulesTxt "" "secret.txt").1.1 = false ∧
    (FileSelect.select_file fsNone rulesTxt "" "notes.txt").1.1 = true := by
  refine ⟨?_, ?_, ?_, ?_, by decide, by decide⟩
  · simpa [FileSelect.select_file] using (select_file_rules_spec fs src_root relpath rules).1
  · simp only [FileSelect.select_file, decide_eq_true_eq]
    exact reduce_eq_some_iff (select_file_rules fs src_root relpath rules).1 true
  · intro l1 e l2 hsplit he hn
    have hred : (reduce_file_select_results
        (select_file_rules fs src_root relpath rules).1).1 = some false :=
      (reduce_eq_some_iff _ false).mpr ⟨l1, e, l2, hsplit, he, hn⟩
    simp [FileSelect.select_file, hred]
  · intro hall
    have hred := reduce_all_none (select_file_rules fs src_root relpath rules).1
      (by simpa [FileSelect.select_file] using hall)
    simp [FileSelect.select_file, hred]

theorem c1_witness :
    (FileSelect.select_file fsNone rulesTxt "" "secret.txt").1.1 = false :=
  ((c1_select_file_last_wins fsNone rulesTxt "" "secret.txt").2.2.1)
    [((some true, none), { includeRule ["*.txt"] with _matches := 1 })]
    ((some false, none), { excludeRule ["secret.txt"] with _matches := 1 })
    [] (by decide) rfl (by simp)

/-- Claim C10: `select_file` tests every non-directory rule on every call —
each rule's post-call state is its own `test` outcome, independent of the
other rules; a rule whose four checks pass increments its counter even when a
later rule determines the final decision.  In the concrete budget scenario
`[include("*.txt", max_matches=1), exclude("*")]`, the first call on
`"a.txt"` is decided by the `exclude("*")` rule (selected = false) yet
consumes the include rule's budget, so a second call on `"b.txt"` finds the
include rule indeterminate with the max-matches check. -/
theorem c10_no_cross_rule_short_circuit (fs : FS) (rules : List FileSelectRule)
    (src_root relpath : String) :
    ((FileSelect.select_file fs rules src_root relpath).2 =
      rules.map (fun r =>
        if r.type = some RuleType.dir then r
        else (FileSelectRule.test fs r src_root relpath).2)) ∧
    (∀ r : FileSelectRule,
      _test_max_matches r = true → _test_patterns r relpath = true →
      _test_type fs r (os_path_join src_root relpath) = true →
      _test_size fs r (os_path_join src_root relpath) = true →
      (FileSelectRule.test fs r src_root relpath).2._matches =
        r._matches + 1) ∧
    ((FileSelect.select_file fsNone rulesMm "" "a.txt").1.1 = false) ∧
    ((FileSelect.select_file fsNone rulesMm "" "a.txt").2.map
        (fun r => r._matches) = [1, 1]) ∧
    ((FileSelect.select_file fsNone
        (FileSelect.select_file fsNone rulesMm "" "a.txt").2 "" "b.txt").1.2.map
        (fun pr => pr.1) =
      [(none, some FileSelectTestName.max_matches), (some false, none)]) := by
  refine ⟨?_, ?_, by decide, by decide, by decide⟩
  · simpa [FileSelect.select_file] using
      (select_file_rules_spec fs src_root relpath rules).2
  · intro r h1 h2 h3 h4
    simp [FileSelectRule.test, h1, h2, h3, h4]

theorem c10_witness :
    (FileSelectRule.test fsNone (includeRule ["*.txt"]) "" "a.txt").2._matches =
      (includeRule ["*.txt"])._matches + 1 :=
  (c10_no_cross_rule_short_circuit fsNone [] "" "a.txt").2.1
    (includeRule ["*.txt"]) rfl (by decide) rfl rfl

theorem disabled_scan_snoc (a : Bool) (l : List FileSelectRule)
    (r : FileSelectRule) :
    _init_disabled_scan a (l ++ [r]) =
      (if r.result then false
       else if patternsContainStar r && r.type = none then true
       else _init_disabled_scan a l) := by
  induction l generalizing a with
  | nil => simp [_init_disabled_scan]
  | cons x xs ih =>
    simp only [List.cons_append, _init_disabled_scan]
    exact ih _

/-- Claim C2: `disabled` is true iff a forward scan of the rules ends
disabled — equivalently, some untyped exclude rule whose patterns contain
`"*"` is followed by no include rule — and a disabled select makes
`_copytree_impl` return at once: no traversal, no handler callback, no rule
evaluation. -/
theorem c2_disabled_iff_and_no_walk :
    (∀ rules : List FileSelectRule,
      (_init_disabled_scan false rules = true ↔ disabled_spec rules)) ∧
    (∀ (fs : FS) (hook : Nat → Bool) (src : String) (ignore : List String)
      (sel : FileSelect) (tree : FTree), sel.disabled = true →
      _copytree_impl fs hook src ignore sel tree =
        ⟨[], [], [], [], sel.rules, none⟩) := by
  constructor
  · intro rules
    induction rules using List.reverseRecOn with
    | nil =>
      simp [_init_disabled_scan, disabled_spec]
    | append_singleton l r ih =>
      rw [disabled_scan_snoc]
      by_cases hres : r.result
      · simp only [hres, if_true]
        constructor
        · intro h; simp at h
        · rintro ⟨l1, r', l2, hsplit, hcond, hinc⟩
          rcases snoc_eq_append_cons l l1 l2 r r' hsplit with
            ⟨_, _, rfl⟩ | ⟨l2', rfl, _⟩
          · rw [hres] at hcond; simp at hcond
          · have := hinc r (by simp)
            rw [hres] at this; simp at this
      · by_cases hstar : patternsContainStar r && r.type = none
        · simp only [hres, if_false, hstar, if_true]
          have hstar' := hstar
          simp only [Bool.and_eq_true, decide_eq_true_eq] at hstar'
          constructor
          · intro _
            exact ⟨l, r, [], rfl,
              ⟨Bool.eq_false_iff.mpr hres, hstar'.1, hstar'.2⟩, by simp⟩
          · intro _; rfl
        · rw [if_neg hres, if_neg hstar, ih]
          constructor
          · rintro ⟨l1, r', l2, rfl, hcond, hinc⟩
            refine ⟨l1, r', l2 ++ [r], by simp, hcond, ?_⟩
            intro r'' hr''
            rcases List.mem_append.mp hr'' with hr'' | hr''
            · exact hinc r'' hr''
            · simp at hr''; subst hr''
              exact Bool.eq_false_iff.mpr hres
          · rintro ⟨l1, r', l2, hsplit, hcond, hinc⟩
            rcases snoc_eq_append_cons l l1 l2 r r' hsplit with
              ⟨_, _, rfl⟩ | ⟨l2', rfl, rfl⟩
            · exfalso
              apply hstar
              simp [hcond.2.1, hcond.2.2]
            · exact ⟨l1, r', l2', rfl, hcond,
                fun r'' hr'' => hinc r'' (by simp [hr''])⟩
  · intro fs hook src ignore sel tree hdis
    simp [_copytree_impl, hdis]

theorem c2_witness :
    _copytree_impl fsNone (fun _ => false) "" []
        ⟨none, [excludeRule ["*"]]⟩ (FTree.node [] ["a.txt"]) =
      ⟨[], [], [], [], [excludeRule ["*"]], none⟩ :=
  c2_disabled_iff_and_no_walk.2 fsNone (fun _ => false) "" []
    ⟨none, [excludeRule ["*"]]⟩ (FTree.node [] ["a.txt"]) (by decide)

theorem process_files_halt (fs : FS) (hook : Nat → Bool) (src : String)
    (ignore : List String) (rsegs : List String) :
    ∀ (pre rest : List String) (rules : List FileSelectRule) (e : Nat),
      (process_files fs hook src ignore rsegs pre rules).err = some e →
      process_files fs hook src ignore rsegs (pre ++ rest) rules =
        process_files fs hook src ignore rsegs pre rules := by
  intro pre
  induction pre with
  | nil =>
    intro rest rules e h
    simp [process_files] at h
  | cons f pre' ih =>
    intro rest rules e h
    simp only [process_files, List.cons_append, List.append_eq] at h ⊢
    by_cases hig : ignore.contains (os_path_join (renderSegs rsegs) f)
    · simp only [hig, if_true] at h ⊢
      rw [ih rest _ e h]
    · simp only [hig, Bool.false_eq_true, if_false] at h ⊢
      by_cases hsel : (FileSelect.select_file fs rules src
          (os_path_join (renderSegs rsegs) f)).1.1
      · simp only [hsel, if_true] at h ⊢
        rcases htc : _try_copy_file hook
            (fs.copy_errno (os_path_join src
              (os_path_join (renderSegs rsegs) f))) with _ | e'
        · simp only [htc] at h ⊢
          rw [ih rest _ e h]
        · simp only [htc] at h ⊢
      · simp only [hsel, Bool.false_eq_true, if_false] at h ⊢
        rw [ih rest _ e h]

/-- Claim C7: in the default handler's copy, a vanished source (errno 2) is
silently tolerated and the walk continues; any other I/O error is offered to
the `handle_copy_error` hook, and when the hook does not claim it the error
propagates and no further file of the walk is processed.  Conjuncts: the
`_try_copy_file` policy for every errno/hook, halting of the file loop at the
first propagated error, propagation out of the directory walk, and the
concrete permission-error scenario (errno 13) with an unhandled hook, a
handling hook, and the vanished-file errno 2. -/
theorem c7_copy_error_policy :
    (∀ hook : Nat → Bool, _try_copy_file hook none = none) ∧
    (∀ hook : Nat → Bool, _try_copy_file hook (some 2) = none) ∧
    (∀ (hook : Nat → Bool) (e : Nat), e ≠ 2 → hook e = true →
      _try_copy_file hook (some e) = none) ∧
    (∀ (hook : Nat → Bool) (e : Nat), e ≠ 2 → hook e = false →
      _try_copy_file hook (some e) = some e) ∧
    (∀ (fs : FS) (hook : Nat → Bool) (src : String) (ignore : List String)
        (rsegs : List String) (pre rest : List String)
        (rules : List FileSelectRule) (e : Nat),
      (process_files fs hook src ignore rsegs pre rules).err = some e →
      process_files fs hook src ignore rsegs (pre ++ rest) rules =
        process_files fs hook src ignore rsegs pre rules) ∧
    (∀ (fs : FS) (hook : Nat → Bool) (src : String) (ignore : List String)
        (rsegs : List String) (dirs : List (String × FTree))
        (files : List String) (rest : List (List String × FTree))
        (rules : List FileSelectRule) (e : Nat),
      (process_files fs hook src ignore rsegs (sortStrings files)
          (FileSelect.prune_dirs fs src (renderSegs rsegs)
            (sortStrings (dirs.map Prod.fst)) rules).2.2).err = some e →
      copytree_walk fs hook src ignore
          ((rsegs, FTree.node dirs files) :: rest) rules =
        ⟨(FileSelect.prune_dirs fs src (renderSegs rsegs)
            (sortStrings (dirs.map Prod.fst)) rules).1.map
              (fun n => CopyEvent.ignore (rsegs ++ [n])) ++
          (process_files fs hook src ignore rsegs (sortStrings files)
            (FileSelect.prune_dirs fs src (renderSegs rsegs)
              (sortStrings (dirs.map Prod.fst)) rules).2.2).events,
         (process_files fs hook src ignore rsegs (sortStrings files)
           (FileSelect.prune_dirs fs src (renderSegs rsegs)
             (sortStrings (dirs.map Prod.fst)) rules).2.2).select_calls,
         (if rules.any (fun r => r.type = some RuleType.dir) then
            (sortStrings (dirs.map Prod.fst)).map (fun n => rsegs ++ [n])
          else []),
         (FileSelect.prune_dirs fs src (renderSegs rsegs)
            (sortStrings (dirs.map Prod.fst)) rules).1.map
              (fun n => rsegs ++ [n]),
         (process_files fs hook src ignore rsegs (sortStrings files)
           (FileSelect.prune_dirs fs src (renderSegs rsegs)
             (sortStrings (dirs.map Prod.fst)) rules).2.2).rules,
         some e⟩) ∧
    ((process_files fsErr13 (fun _ => false) "" [] []
        ["a.txt", "b.txt", "c.txt"] [includeRule ["*.txt"]]).events =
      [CopyEvent.copy ["a.txt"], CopyEvent.copy ["b.txt"]] ∧
     (process_files fsErr13 (fun _ => false) "" [] []
        ["a.txt", "b.txt", "c.txt"] [includeRule ["*.txt"]]).err = some 13) ∧
    ((process_files fsErr13 (fun _ => true) "" [] []
        ["a.txt", "b.txt", "c.txt"] [includeRule ["*.txt"]]).events =
      [CopyEvent.copy ["a.txt"], CopyEvent.copy ["b.txt"],
       CopyEvent.copy ["c.txt"]] ∧
     (process_files fsErr13 (fun _ => true) "" [] []
        ["a.txt", "b.txt", "c.txt"] [includeRule ["*.txt"]]).err = none) ∧
    ((process_files fsErr2 (fun _ => false) "" [] []
        ["a.txt", "b.txt", "c.txt"] [includeRule ["*.txt"]]).events =
      [CopyEvent.copy ["a.txt"], CopyEvent.copy ["b.txt"],
       CopyEvent.copy ["c.txt"]] ∧
     (process_files fsErr2 (fun _ => false) "" [] []
        ["a.txt", "b.txt", "c.txt"] [includeRule ["*.txt"]]).err = none) := by
  refine ⟨fun _ => rfl, fun _ => rfl, ?_, ?_,
    process_files_halt, ?_, by decide, by decide, by decide⟩
  · intro hook e h2 hh
    simp [_try_copy_file, h2, hh]
  · intro hook e h2 hh
    simp [_try_copy_file, h2, hh]
  · intro fs hook src ignore rsegs dirs files rest rules e h
    rw [copytree_walk]
    simp only [h, List.map_map, Function.comp_def]

theorem c7_witness :
    _try_copy_file (fun _ => false) (some 13) = some 13 :=
  c7_copy_error_policy.2.2.2.1 (fun _ => false) 13 (by decide) rfl

theorem char_toNat_lt_codes (c : Char) : c.toNat < 1114112 := by
  have := c.valid
  rcases this with h | ⟨h1, h2⟩ <;> unfold Char.toNat <;> omega

theorem char_toNat_inj (c1 c2 : Char) (h : c1.toNat = c2.toNat) : c1 = c2 := by
  have := congrArg Char.ofNat h
  rwa [Char.ofNat_toNat, Char.ofNat_toNat] at this

theorem encodeChar_ne_nil (c : Char) : encodeChar c ≠ [] := by
  unfold encodeChar
  split_ifs <;> simp

theorem encodeChar_head_len (c1 c2 : Char)
    (h : (encodeChar c1).head? = (encodeChar c2).head?) :
    (encodeChar c1).length = (encodeChar c2).length := by
  have hv1 := char_toNat_lt_codes c1
  have hv2 := char_toNat_lt_codes c2
  unfold encodeChar at h ⊢
  split_ifs at h ⊢ <;> simp at h ⊢ <;> omega

theorem encodeChar_inj (c1 c2 : Char) (h : encodeChar c1 = encodeChar c2) :
    c1 = c2 := by
  have hv1 := char_toNat_lt_codes c1
  have hv2 := char_toNat_lt_codes c2
  apply char_toNat_inj
  unfold encodeChar at h
  split_ifs at h <;> simp at h <;> omega

theorem encodeList_inj : ∀ l1 l2 : List Char,
    (l1.map encodeChar).flatten = (l2.map encodeChar).flatten → l1 = l2 := by
  intro l1
  induction l1 with
  | nil =>
    intro l2 h
    cases l2 with
    | nil => rfl
    | cons c t =>
      exfalso
      simp only [List.map_nil, List.flatten_nil, List.map_cons,
        List.flatten_cons] at h
      rcases he : encodeChar c with _ | ⟨b, r⟩
      · exact encodeChar_ne_nil c he
      · rw [he] at h; simp at h
  | cons c1 t1 ih =>
    intro l2 h
    cases l2 with
    | nil =>
      exfalso
      simp only [List.map_nil, List.flatten_nil, List.map_cons,
        List.flatten_cons] at h
      rcases he : encodeChar c1 with _ | ⟨b, r⟩
      · exact encodeChar_ne_nil c1 he
      · rw [he] at h; simp at h
    | cons c2 t2 =>
      simp only [List.map_cons, List.flatten_cons] at h
      have hhead : (encodeChar c1).head? = (encodeChar c2).head? := by
        rcases he1 : encodeChar c1 with _ | ⟨b1, r1⟩
        · exact absurd he1 (encodeChar_ne_nil c1)
        rcases he2 : encodeChar c2 with _ | ⟨b2, r2⟩
        · exact absurd he2 (encodeChar_ne_nil c2)
        rw [he1, he2] at h
        simp only [List.cons_append] at h
        rw [List.cons.injEq] at h
        simp [he1, he2, h.1]
      obtain ⟨h1, h2⟩ := List.append_inj h (encodeChar_head_len c1 c2 hhead)
      rw [encodeChar_inj c1 c2 h1, ih t2 h2]

theorem encodeUtf8_inj {s t : String} (h : encodeUtf8 s = encodeUtf8 t) :
    s = t := by
  apply String.ext
  exact encodeList_inj _ _ h

theorem encodeChar_zero_not_mem (c : Char) (hc : c ≠ '\x00') :
    ¬ 0 ∈ encodeChar c := by
  have hv := char_toNat_lt_codes c
  have h0 : c.toNat ≠ 0 := by
    intro h
    exact hc (char_toNat_inj c '\x00' (by rw [h]; rfl))
  unfold encodeChar
  split_ifs <;> simp <;> omega

theorem zero_not_mem_encodeUtf8 (s : String) (hs : ¬ '\x00' ∈ s.data) :
    ¬ 0 ∈ encodeUtf8 s := by
  unfold encodeUtf8
  intro h
  rcases List.mem_flatten.mp h with ⟨l, hl, h0⟩
  rcases List.mem_map.mp hl with ⟨c, hc, rfl⟩
  exact encodeChar_zero_not_mem c (fun he => hs (he ▸ hc)) h0

theorem findIdx_zero_of_append (N rest : List Nat) (h : ¬ 0 ∈ N) :
    (N ++ 0 :: rest).findIdx (fun x => decide (x = 0)) = N.length := by
  induction N with
  | nil => simp [List.findIdx_cons]
  | cons a t ih =>
    have ha : ¬ a = 0 := fun he => h (by simp [he])
    simp [List.findIdx_cons, ha, ih (fun he => h (by simp [he]))]

/-- Claim C8: the digest stream is built by feeding, per path in the given
order, the UTF-8 bytes of the normalized path, one NUL byte, the file's
bytes, and a second NUL byte into one running hash; it is deterministic —
it depends only on the ordered path list and the bytes of the listed files —
and order-sensitive: for NUL-free path strings, swapping two distinct paths
changes the hash input stream (and hence the digest for any hash of that
stream).  (Paths containing NUL cannot be opened by the code, so NUL-freedom
is implicit in any run that produces a digest.) -/
theorem c8_files_digest_stream :
    (∀ (fs : FS) (root p : String) (rest : List String),
      files_digest_stream fs (p :: rest) root =
        encodeUtf8 p ++ 0 :: (fs.file_bytes (os_path_join root p) ++
          0 :: files_digest_stream fs rest root)) ∧
    (∀ (fs1 fs2 : FS) (paths : List String) (root : String),
      (∀ p ∈ paths, fs1.file_bytes (os_path_join root p) =
        fs2.file_bytes (os_path_join root p)) →
      files_digest_stream fs1 paths root = files_digest_stream fs2 paths root ∧
      ∀ md5hex : List Nat → String,
        files_digest md5hex fs1 paths root =
          files_digest md5hex fs2 paths root) ∧
    (∀ (fs : FS) (root a b : String),
      ¬ '\x00' ∈ a.data → ¬ '\x00' ∈ b.data → a ≠ b →
      files_digest_stream fs [a, b] root ≠ files_digest_stream fs [b, a] root) := by
  have hnorm : ∀ (fs : FS) (root p : String) (rest : List String),
      files_digest_stream fs (p :: rest) root =
        encodeUtf8 p ++ 0 :: (fs.file_bytes (os_path_join root p) ++
          0 :: files_digest_stream fs rest root) := by
    intro fs root p rest
    simp [files_digest_stream, digest_entry, _encode_file_path_for_digest,
      _path_for_digest, List.flatten_cons, List.append_assoc,
      List.singleton_append]
  refine ⟨hnorm, ?_, ?_⟩
  · intro fs1 fs2 paths root hagree
    have hstream : files_digest_stream fs1 paths root =
        files_digest_stream fs2 paths root := by
      unfold files_digest_stream
      congr 1
      apply List.map_congr_left
      intro p hp
      unfold digest_entry
      rw [hagree p hp]
    exact ⟨hstream, fun md5hex => by unfold files_digest; rw [hstream]⟩
  · intro fs root a b ha hb hab heq
    have hNA := zero_not_mem_encodeUtf8 a ha
    have hNB := zero_not_mem_encodeUtf8 b hb
    rw [hnorm fs root a [b], hnorm fs root b [], hnorm fs root b [a],
      hnorm fs root a []] at heq
    have hidx := congrArg (List.findIdx (fun x => decide (x = 0))) heq
    rw [findIdx_zero_of_append _ _ hNA, findIdx_zero_of_append _ _ hNB] at hidx
    have htake := congrArg (List.take (encodeUtf8 a).length) heq
    rw [List.take_left, hidx, List.take_left] at htake
    exact hab (encodeUtf8_inj htake)

theorem c8_witness :
    files_digest_stream fsNone ["a", "b"] "" ≠
      files_digest_stream fsNone ["b", "a"] "" :=
  c8_files_digest_stream.2.2 fsNone "" "a" "b" (by decide) (by decide)
    (by decide)

theorem charListLe_total : ∀ a b : List Char,
    charListLe a b = true ∨ charListLe b a = true := by
  intro a
  induction a with
  | nil => intro b; left; rfl
  | cons x xs ih =>
    intro b
    cases b with
    | nil => right; rfl
    | cons y ys =>
      by_cases hxy : x = y
      · subst hxy
        rcases ih ys with h | h
        · left; simp [charListLe, h]
        · right; simp [charListLe, h]
      · rcases lt_trichotomy x y with h | h | h
        · left; simp [charListLe, hxy, h]
        · exact absurd h hxy
        · right
          have hyx : ¬ y = x := fun he => hxy he.symm
          simp [charListLe, hyx, h, not_lt_of_gt h]

theorem charListLe_trans : ∀ a b c : List Char,
    charListLe a b = true → charListLe b c = true → charListLe a c = true := by
  intro a
  induction a with
  | nil => intro b c _ _; rfl
  | cons x xs ih =>
    intro b c hab hbc
    cases b with
    | nil => simp [charListLe] at hab
    | cons y ys =>
      cases c with
      | nil => simp [charListLe] at hbc
      | cons z zs =>
        by_cases hxy : x = y <;> by_cases hyz : y = z
        · subst hxy; subst hyz
          simp only [charListLe, if_pos rfl] at hab hbc ⊢
          exact ih ys zs hab hbc
        · subst hxy
          simp only [charListLe, if_pos rfl] at hab
          simp only [charListLe, if_neg hyz] at hbc
          simp [charListLe, hyz, hbc]
        · subst hyz
          simp only [charListLe, if_neg hxy] at hab
          simp [charListLe, hxy, hab]
        · simp only [charListLe, if_neg hxy] at hab
          simp only [charListLe, if_neg hyz] at hbc
          have hxz : x < z := lt_trans (of_decide_eq_true hab) (of_decide_eq_true hbc)
          have hxz' : ¬ x = z := ne_of_lt hxz
          simp [charListLe, hxz', hxz]

instance : IsTotal String (fun a b => strLe a b = true) :=
  ⟨fun a b => charListLe_total a.data b.data⟩

instance : IsTrans String (fun a b => strLe a b = true) :=
  ⟨fun a b c => charListLe_trans a.data b.data c.data⟩

theorem sortStrings_sorted (l : List String) :
    List.Sorted (fun a b => strLe a b = true) (sortStrings l) :=
  List.sorted_insertionSort _ l

theorem sortStrings_perm (l : List String) : (sortStrings l).Perm l :=
  List.perm_insertionSort _ l

theorem foldl_last_eq_reduce (l : List RuleResult) (acc : Option Bool) :
    l.foldl (fun a pr => match pr.1.1 with | some b => some b | none => a) acc =
      match (reduce_file_select_results l).1 with
      | some b => some b
      | none => acc := by
  induction l using List.reverseRecOn generalizing acc with
  | nil => simp [reduce_file_select_results]
  | append_singleton t e ih =>
    rw [List.foldl_append, reduce_snoc]
    rcases he : e.1.1 with _ | b
    · simp only [List.foldl_cons, List.foldl_nil, he, Option.isSome_none,
        Bool.false_eq_true, if_false]
      exact ih acc
    · simp [he]

theorem dir_rules_last_fst (fs : FS) (sr rp : String) :
    ∀ (rules : List FileSelectRule) (last : Option Bool),
      (dir_rules_last fs sr rp rules last).1 =
        ((rules.filter (fun r => r.type = some RuleType.dir)).map
          (fun r => FileSelectRule.test fs r sr rp)).foldl
            (fun a pr => match pr.1.1 with | some b => some b | none => a)
            last := by
  intro rules
  induction rules with
  | nil => intro last; simp [dir_rules_last]
  | cons r rest ih =>
    intro last
    by_cases hdir : r.type = some RuleType.dir
    · have hne : ¬ r.type ≠ some RuleType.dir := by simp [hdir]
      rcases hte : FileSelectRule.test fs r sr rp with ⟨tr, r'⟩
      simp only [dir_rules_last, if_neg hne, hte]
      rw [List.filter_cons_of_pos (by simp [hdir]), List.map_cons,
        List.foldl_cons, hte]
      rcases ht : tr.1 with _ | b <;> simp only [ht] <;> exact ih _
    · simp only [dir_rules_last, if_pos hdir]
      rw [List.filter_cons_of_neg (by simp [hdir])]
      exact ih last

theorem dir_rules_last_eq_decision (fs : FS) (sr rp : String)
    (rules : List FileSelectRule) :
    (dir_rules_last fs sr rp rules none).1 = prune_decision fs sr rp rules := by
  rw [dir_rules_last_fst, foldl_last_eq_reduce, prune_decision]
  rcases h : (reduce_file_select_results
      ((rules.filter (fun r => r.type = some RuleType.dir)).map
        (fun r => FileSelectRule.test fs r sr rp))).1 with _ | b <;> simp [h]

theorem bumpedFrom_refl (r : FileSelectRule) : bumpedFrom r r :=
  ⟨r._matches, rfl⟩

theorem bumpedFrom_trans {r1 r2 r3 : FileSelectRule}
    (h1 : bumpedFrom r1 r2) (h2 : bumpedFrom r2 r3) : bumpedFrom r1 r3 := by
  obtain ⟨m1, rfl⟩ := h1
  obtain ⟨m2, rfl⟩ := h2
  exact ⟨m2, rfl⟩

theorem test_bump (fs : FS) (sr rp : String) (r : FileSelectRule) :
    bumpedFrom r (FileSelectRule.test fs r sr rp).2 := by
  by_cases h1 : _test_max_matches r <;>
    by_cases h2 : _test_patterns r rp <;>
    by_cases h3 : _test_type fs r (os_path_join sr rp) <;>
    by_cases h4 : _test_size fs r (os_path_join sr rp) <;>
    simp only [FileSelectRule.test, h1, h2, h3, h4, Bool.not_true,
      Bool.not_false, Bool.false_eq_true, if_false, if_true] <;>
    first
      | exact bumpedFrom_refl r
      | exact ⟨r._matches + 1, rfl⟩

theorem dir_rules_last_bump (fs : FS) (sr rp : String) :
    ∀ (rules : List FileSelectRule) (last : Option Bool),
      List.Forall₂ bumpedFrom rules (dir_rules_last fs sr rp rules last).2 := by
  intro rules
  induction rules with
  | nil => intro last; simp [dir_rules_last]
  | cons r rest ih =>
    intro last
    by_cases hdir : r.type = some RuleType.dir
    · have hne : ¬ r.type ≠ some RuleType.dir := by simp [hdir]
      rcases hte : FileSelectRule.test fs r sr rp with ⟨tr, r'⟩
      simp only [dir_rules_last, if_neg hne, hte]
      refine List.Forall₂.cons ?_ (ih _)
      have := test_bump fs sr rp r
      rwa [hte] at this
    · simp only [dir_rules_last, if_pos hdir]
      exact List.Forall₂.cons (bumpedFrom_refl r) (ih last)

theorem test_fst_congr (fs : FS) (sr rp : String) (r r' : FileSelectRule)
    (hb : bumpedFrom r r') (hmm : r.max_matches = none) :
    (FileSelectRule.test fs r' sr rp).1 = (FileSelectRule.test fs r sr rp).1 := by
  obtain ⟨m, rfl⟩ := hb
  unfold FileSelectRule.test
  have h1 : _test_max_matches { r with _matches := m } = true := by
    simp [_test_max_matches, hmm]
  have h2 : _test_max_matches r = true := by
    simp [_test_max_matches, hmm]
  have h3 : _test_patterns { r with _matches := m } rp = _test_patterns r rp := rfl
  have h4 : ∀ path, _test_type fs { r with _matches := m } path =
      _test_type fs r path := fun _ => rfl
  have h5 : ∀ path, _test_size fs { r with _matches := m } path =
      _test_size fs r path := fun _ => rfl
  simp only [h1, h2, h3, h4, h5, Bool.not_true, Bool.false_eq_true, if_false]
  split_ifs <;> rfl

theorem bump_type_eq {r r' : FileSelectRule} (h : bumpedFrom r r') :
    r'.type = r.type := by
  obtain ⟨m, rfl⟩ := h
  rfl

theorem decision_congr (fs : FS) (sr rp : String) :
    ∀ (rules rules' : List FileSelectRule),
      List.Forall₂ bumpedFrom rules rules' →
      (∀ r ∈ rules, r.type = some RuleType.dir → r.max_matches = none) →
      prune_decision fs sr rp rules' = prune_decision fs sr rp rules := by
  have main : ∀ (rules rules' : List FileSelectRule),
      List.Forall₂ bumpedFrom rules rules' →
      (∀ r ∈ rules, r.type = some RuleType.dir → r.max_matches = none) →
      ∀ acc : Option Bool,
        ((rules'.filter (fun r => r.type = some RuleType.dir)).map
          (fun r => FileSelectRule.test fs r sr rp)).foldl
            (fun a pr => match pr.1.1 with | some b => some b | none => a) acc =
        ((rules.filter (fun r => r.type = some RuleType.dir)).map
          (fun r => FileSelectRule.test fs r sr rp)).foldl
            (fun a pr => match pr.1.1 with | some b => some b | none => a) acc := by
    intro rules rules' hf
    induction hf with
    | nil => intro _ _; rfl
    | cons hr hrest ih =>
      rename_i r r' t t'
      intro hmm acc
      by_cases hdir : r.type = some RuleType.dir
      · rw [List.filter_cons_of_pos (by simp [bump_type_eq hr, hdir]),
          List.filter_cons_of_pos (by simp [hdir]), List.map_cons,
          List.map_cons, List.foldl_cons, List.foldl_cons]
        have hfst := test_fst_congr fs sr rp r r' hr
          (hmm r (by simp) hdir)
        rw [hfst]
        exact ih (fun x hx ht => hmm x (by simp [hx]) ht) _
      · rw [List.filter_cons_of_neg (by simp [bump_type_eq hr, hdir]),
          List.filter_cons_of_neg (by simp [hdir])]
        exact ih (fun x hx ht => hmm x (by simp [hx]) ht) _
  intro rules rules' hf hmm
  have h1 := dir_rules_last_fst fs sr rp rules' none
  have h2 := dir_rules_last_fst fs sr rp rules none
  have e1 := dir_rules_last_eq_decision fs sr rp rules'
  have e2 := dir_rules_last_eq_decision fs sr rp rules
  rw [← e1, ← e2, h1, h2]
  exact main rules rules' hf hmm none

theorem forall₂_bump_trans : ∀ {l1 l2 l3 : List FileSelectRule},
    List.Forall₂ bumpedFrom l1 l2 → List.Forall₂ bumpedFrom l2 l3 →
    List.Forall₂ bumpedFrom l1 l3 := by
  intro l1 l2 l3 h1
  induction h1 generalizing l3 with
  | nil =>
    intro h2
    cases h2
    exact List.Forall₂.nil
  | cons hr hrest ih =>
    intro h2
    cases h2 with
    | cons hr2 hrest2 =>
      exact List.Forall₂.cons (bumpedFrom_trans hr hr2) (ih hrest2)

theorem prune_dirs_go_chars (fs : FS) (src relroot : String)
    (rules0 : List FileSelectRule)
    (hmm : ∀ r ∈ rules0, r.type = some RuleType.dir → r.max_matches = none) :
    ∀ (names dirs : List String) (rules : List FileSelectRule)
      (pruned : List String),
      List.Forall₂ bumpedFrom rules0 rules →
      (prune_dirs_go fs src relroot names dirs rules pruned).1 =
        pruned.reverse ++ names.filter
          (fun n => prune_decision fs src (os_path_join relroot n) rules0 =
            some false) := by
  intro names
  induction names with
  | nil =>
    intro dirs rules pruned _
    simp [prune_dirs_go]
  | cons name rest ih =>
    intro dirs rules pruned hf
    have hdec : (dir_rules_last fs src (os_path_join relroot name) rules none).1 =
        prune_decision fs src (os_path_join relroot name) rules0 := by
      rw [dir_rules_last_eq_decision]
      exact decision_congr fs src (os_path_join relroot name) rules0 rules hf hmm
    have hf' : List.Forall₂ bumpedFrom rules0
        (dir_rules_last fs src (os_path_join relroot name) rules none).2 := by
      have h2 := dir_rules_last_bump fs src (os_path_join relroot name) rules none
      exact forall₂_bump_trans hf h2
    rcases hd : dir_rules_last fs src (os_path_join relroot name) rules none
      with ⟨last, rules'⟩
    rw [hd] at hdec hf'
    by_cases hlast : last = some false
    · subst hlast
      simp only [prune_dirs_go, hd, eq_self_iff_true, if_true]
      rw [ih (dirs.erase name) rules' (name :: pruned) hf']
      rw [List.filter_cons_of_pos (by simp [← hdec])]
      simp
    · simp only [prune_dirs_go, hd, if_neg hlast]
      rw [ih dirs rules' pruned hf']
      rw [List.filter_cons_of_neg (by simp [← hdec, hlast])]

theorem prune_dirs_spec (fs : FS) (src relroot : String) (dirs : List String)
    (rules : List FileSelectRule)
    (hmm : ∀ r ∈ rules, r.type = some RuleType.dir → r.max_matches = none) :
    (FileSelect.prune_dirs fs src relroot dirs rules).1 =
      (sortStrings dirs).filter
        (fun n => prune_decision fs src (os_path_join relroot n) rules =
          some false) := by
  unfold FileSelect.prune_dirs
  have := prune_dirs_go_chars fs src relroot rules hmm (sortStrings dirs) dirs
    rules [] (List.forall₂_same.mpr (fun r _ => bumpedFrom_refl r))
  simpa using this

theorem prune_dirs_go_disjoint (fs : FS) (src relroot : String) :
    ∀ (names dirs : List String) (rules : List FileSelectRule)
      (pruned : List String),
      dirs.Nodup → (∀ n ∈ pruned, n ∉ dirs) →
      ∀ n, n ∈ (prune_dirs_go fs src relroot names dirs rules pruned).1 →
        n ∉ (prune_dirs_go fs src relroot names dirs rules pruned).2.1 := by
  intro names
  induction names with
  | nil =>
    intro dirs rules pruned hnd hinv n hn
    simp only [prune_dirs_go] at hn ⊢
    exact hinv n (by simpa using hn)
  | cons name rest ih =>
    intro dirs rules pruned hnd hinv n hn
    rcases hd : dir_rules_last fs src (os_path_join relroot name) rules none
      with ⟨last, rules'⟩
    by_cases hlast : last = some false
    · subst hlast
      simp only [prune_dirs_go, hd, eq_self_iff_true, if_true] at hn ⊢
      refine ih (dirs.erase name) rules' (name :: pruned)
        (hnd.erase name) ?_ n hn
      intro m hm
      rcases List.mem_cons.mp hm with rfl | hm
      · intro hmem
        exact ((List.Nodup.mem_erase_iff hnd).mp hmem).1 rfl
      · intro hmem
        exact hinv m hm (List.mem_of_mem_erase hmem)
    · simp only [prune_dirs_go, hd, if_neg hlast] at hn ⊢
      exact ih dirs rules' pruned hnd hinv n hn

theorem prune_dirs_disjoint (fs : FS) (src relroot : String)
    (dirs : List String) (rules : List FileSelectRule) (hnd : dirs.Nodup) :
    ∀ n ∈ (FileSelect.prune_dirs fs src relroot dirs rules).1,
      n ∉ (FileSelect.prune_dirs fs src relroot dirs rules).2.1 := by
  intro n hn
  exact prune_dirs_go_disjoint fs src relroot (sortStrings dirs) dirs rules []
    hnd (by simp) n hn

theorem prune_dirs_go_sublist (fs : FS) (src relroot : String) :
    ∀ (names dirs : List String) (rules : List FileSelectRule)
      (pruned : List String),
      ∃ sub, (prune_dirs_go fs src relroot names dirs rules pruned).1 =
        pruned.reverse ++ sub ∧ sub.Sublist names := by
  intro names
  induction names with
  | nil =>
    intro dirs rules pruned
    exact ⟨[], by simp [prune_dirs_go], List.Sublist.refl []⟩
  | cons name rest ih =>
    intro dirs rules pruned
    rcases hd : dir_rules_last fs src (os_path_join relroot name) rules none
      with ⟨last, rules'⟩
    by_cases hlast : last = some false
    · subst hlast
      obtain ⟨sub, hs, hsub⟩ := ih (dirs.erase name) rules' (name :: pruned)
      refine ⟨name :: sub, ?_, List.Sublist.cons₂ name hsub⟩
      simp only [prune_dirs_go, hd, eq_self_iff_true, if_true, hs]
      simp
    · obtain ⟨sub, hs, hsub⟩ := ih dirs rules' pruned
      refine ⟨sub, ?_, List.Sublist.cons name hsub⟩
      simp only [prune_dirs_go, hd, if_neg hlast, hs]

theorem prune_dirs_sorted_sublist (fs : FS) (src relroot : String)
    (dirs : List String) (rules : List FileSelectRule) :
    (FileSelect.prune_dirs fs src relroot dirs rules).1.Sublist
      (sortStrings dirs) ∧
    List.Sorted (fun a b => strLe a b = true)
      (FileSelect.prune_dirs fs src relroot dirs rules).1 := by
  obtain ⟨sub, hs, hsub⟩ :=
    prune_dirs_go_sublist fs src relroot (sortStrings dirs) dirs rules []
  unfold FileSelect.prune_dirs
  rw [hs]
  simp only [List.reverse_nil, List.nil_append]
  exact ⟨hsub, (sortStrings_sorted dirs).sublist hsub⟩

theorem process_files_calls_shape (fs : FS) (hook : Nat → Bool) (src : String)
    (ig : List String) (rsegs : List String) :
    ∀ (files : List String) (rules : List FileSelectRule),
      ∀ q ∈ (process_files fs hook src ig rsegs files rules).select_calls,
        ∃ name ∈ files, q = rsegs ++ [name] := by
  intro files
  induction files with
  | nil =>
    intro rules q hq
    simp [process_files] at hq
  | cons f rest ih =>
    intro rules q hq
    simp only [process_files] at hq
    by_cases hig : ig.contains (os_path_join (renderSegs rsegs) f)
    · simp only [hig, if_true] at hq
      obtain ⟨name, hn, he⟩ := ih _ q hq
      exact ⟨name, by simp [hn], he⟩
    · simp only [hig, Bool.false_eq_true, if_false] at hq
      by_cases hsel : (FileSelect.select_file fs rules src
          (os_path_join (renderSegs rsegs) f)).1.1
      · simp only [hsel, if_true] at hq
        rcases htc : _try_copy_file hook (fs.copy_errno (os_path_join src
            (os_path_join (renderSegs rsegs) f))) with _ | e
        · simp only [htc] at hq
          rcases List.mem_cons.mp hq with rfl | hq
          · exact ⟨f, by simp, rfl⟩
          · obtain ⟨name, hn, he⟩ := ih _ q hq
            exact ⟨name, by simp [hn], he⟩
        · simp only [htc] at hq
          rcases List.mem_singleton.mp hq with rfl
          exact ⟨f, by simp, rfl⟩
      · simp only [hsel, Bool.false_eq_true, if_false] at hq
        rcases List.mem_cons.mp hq with rfl | hq
        · exact ⟨f, by simp, rfl⟩
        · obtain ⟨name, hn, he⟩ := ih _ q hq
          exact ⟨name, by simp [hn], he⟩

theorem process_files_no_dirs (fs : FS) (hook : Nat → Bool) (src : String)
    (ig : List String) (rsegs : List String) :
    ∀ (files : List String) (rules : List FileSelectRule),
      (process_files fs hook src ig rsegs files rules).tested_dirs = [] ∧
      (process_files fs hook src ig rsegs files rules).pruned_dirs = [] := by
  intro files
  induction files with
  | nil => intro rules; simp [process_files]
  | cons f rest ih =>
    intro rules
    simp only [process_files]
    by_cases hig : ig.contains (os_path_join (renderSegs rsegs) f)
    · simp only [hig, if_true]
      exact ⟨(ih _).1, trivial⟩
    · simp only [hig, Bool.false_eq_true, if_false]
      by_cases hsel : (FileSelect.select_file fs rules src
          (os_path_join (renderSegs rsegs) f)).1.1
      · simp only [hsel, if_true]
        rcases htc : _try_copy_file hook (fs.copy_errno (os_path_join src
            (os_path_join (renderSegs rsegs) f))) with _ | e
        · simp only [htc]
          exact ⟨(ih _).1, trivial⟩
        · simp only [htc]
          exact ⟨trivial, trivial⟩
      · simp only [hsel, Bool.false_eq_true, if_false]
        exact ⟨(ih _).1, trivial⟩

theorem stackMeasure_children_lt (rsegs : List String)
    (dirs : List (String × FTree)) (files : List String)
    (rest : List (List String × FTree)) (q : String × FTree → Bool) :
    stackMeasure (((sortPairs dirs).filter q).map
        (fun p => (rsegs ++ [p.1], p.2)) ++ rest) <
      stackMeasure ((rsegs, FTree.node dirs files) :: rest) := by
  simp only [stackMeasure, List.map_append, List.sum_append, List.map_cons,
    List.sum_cons, List.map_map, Function.comp_def]
  have key : ∀ l : List (String × FTree),
      ((l.map (fun p => FTree.size p.2)).sum) ≤ sizeDirs l := by
    intro l
    induction l with
    | nil => simp [sizeDirs]
    | cons x xs ihx =>
      obtain ⟨n, t⟩ := x
      simp only [List.map_cons, List.sum_cons, sizeDirs]
      omega
  have hperm : (((sortPairs dirs).map (fun p => FTree.size p.2)).sum) =
      ((dirs.map (fun p => FTree.size p.2)).sum) :=
    List.Perm.sum_eq (List.Perm.map _ (List.perm_insertionSort _ dirs))
  have hsub : ((((sortPairs dirs).filter q).map
      (fun p => FTree.size p.2)).sum) ≤
        (((sortPairs dirs).map (fun p => FTree.size p.2)).sum) :=
    List.Sublist.sum_le_sum
      (List.Sublist.map _ (List.filter_sublist _)) (by simp)
  have h3 := key dirs
  have h4 : FTree.size (FTree.node dirs files) = 1 + sizeDirs dirs := by
    rw [FTree.size]
  omega

theorem walk_paths_prefix (fs : FS) (hook : Nat → Bool) (src : String)
    (ig : List String) :
    ∀ (n : Nat) (st : List (List String × FTree))
      (rules : List FileSelectRule) (q : List String),
      stackMeasure st ≤ n →
      (q ∈ (copytree_walk fs hook src ig st rules).select_calls ∨
       q ∈ (copytree_walk fs hook src ig st rules).tested_dirs ∨
       q ∈ (copytree_walk fs hook src ig st rules).pruned_dirs) →
      ∃ e ∈ st, e.1 <+: q ∧ e.1.length < q.length := by
  intro n
  induction n with
  | zero =>
    intro st rules q hm hq
    cases st with
    | nil =>
      rw [copytree_walk] at hq
      simp at hq
    | cons head rest =>
      exfalso
      obtain ⟨rsegs, tree⟩ := head
      cases tree with
      | node dirs files =>
        have h1 : FTree.size (FTree.node dirs files) = 1 + sizeDirs dirs := by
          rw [FTree.size]
        have h2 : stackMeasure ((rsegs, FTree.node dirs files) :: rest) =
            FTree.size (FTree.node dirs files) +
              stackMeasure rest := by
          simp [stackMeasure]
        omega
  | succ n ih =>
    intro st rules q hm hq
    cases st with
    | nil =>
      rw [copytree_walk] at hq
      simp at hq
    | cons head rest =>
      obtain ⟨rsegs, tree⟩ := head
      cases tree with
      | node dirs files =>
        rw [copytree_walk] at hq
        rcases herr : (process_files fs hook src ig rsegs (sortStrings files)
            (FileSelect.prune_dirs fs src (renderSegs rsegs)
              (sortStrings (dirs.map Prod.fst)) rules).2.2).err with _ | e0
        · simp only [herr, List.mem_append] at hq
          have hlevel : ∀ hq1 :
              (q ∈ (process_files fs hook src ig rsegs (sortStrings files)
                (FileSelect.prune_dirs fs src (renderSegs rsegs)
                  (sortStrings (dirs.map Prod.fst)) rules).2.2).select_calls ∨
               q ∈ (if rules.any (fun r => r.type = some RuleType.dir) then
                  (sortStrings (dirs.map Prod.fst)).map (fun n => rsegs ++ [n])
                else []) ∨
               q ∈ (FileSelect.prune_dirs fs src (renderSegs rsegs)
                  (sortStrings (dirs.map Prod.fst)) rules).1.map
                    (fun n => rsegs ++ [n])),
              ∃ e ∈ (rsegs, FTree.node dirs files) :: rest,
                e.1 <+: q ∧ e.1.length < q.length := by
            intro hq1
            refine ⟨(rsegs, FTree.node dirs files), by simp, ?_⟩
            rcases hq1 with hq1 | hq1 | hq1
            · obtain ⟨name, _, rfl⟩ := process_files_calls_shape fs hook src ig
                rsegs _ _ q hq1
              exact ⟨List.prefix_append rsegs [name], by simp⟩
            · rcases hany : rules.any (fun r => r.type = some RuleType.dir) with
                _ | _ <;> rw [hany] at hq1
              · simp at hq1
              · obtain ⟨name, _, rfl⟩ := List.mem_map.mp hq1
                exact ⟨List.prefix_append rsegs [name], by simp⟩
            · obtain ⟨name, _, rfl⟩ := List.mem_map.mp hq1
              exact ⟨List.prefix_append rsegs [name], by simp⟩
          have hrec : ∀ hq2 :
              (q ∈ (copytree_walk fs hook src ig
                  ((((sortPairs dirs).filter (fun p =>
                      (FileSelect.prune_dirs fs src (renderSegs rsegs)
                        (sortStrings (dirs.map Prod.fst)) rules).2.1.contains
                        p.1)).map (fun p => (rsegs ++ [p.1], p.2))) ++ rest)
                  (process_files fs hook src ig rsegs (sortStrings files)
                    (FileSelect.prune_dirs fs src (renderSegs rsegs)
                      (sortStrings (dirs.map Prod.fst)) rules).2.2).rules).select_calls ∨
               q ∈ (copytree_walk fs hook src ig
                  ((((sortPairs dirs).filter (fun p =>
                      (FileSelect.prune_dirs fs src (renderSegs rsegs)
                        (sortStrings (dirs.map Prod.fst)) rules).2.1.contains
                        p.1)).map (fun p => (rsegs ++ [p.1], p.2))) ++ rest)
                  (process_files fs hook src ig rsegs (sortStrings files)
                    (FileSelect.prune_dirs fs src (renderSegs rsegs)
                      (sortStrings (dirs.map Prod.fst)) rules).2.2).rules).tested_dirs ∨
               q ∈ (copytree_walk fs hook src ig
                  ((((sortPairs dirs).filter (fun p =>
                      (FileSelect.prune_dirs fs src (renderSegs rsegs)
                        (sortStrings (dirs.map Prod.fst)) rules).2.1.contains
                        p.1)).map (fun p => (rsegs ++ [p.1], p.2))) ++ rest)
                  (process_files fs hook src ig rsegs (sortStrings files)
                    (FileSelect.prune_dirs fs src (renderSegs rsegs)
                      (sortStrings (dirs.map Prod.fst)) rules).2.2).rules).pruned_dirs),
              ∃ e ∈ (rsegs, FTree.node dirs files) :: rest,
                e.1 <+: q ∧ e.1.length < q.length := by
            intro hq2
            have hmlt := stackMeasure_children_lt rsegs dirs files rest
              (fun p => (FileSelect.prune_dirs fs src (renderSegs rsegs)
                (sortStrings (dirs.map Prod.fst)) rules).2.1.contains p.1)
            have hm2 : stackMeasure ((rsegs, FTree.node dirs files) :: rest) ≤
                n + 1 := hm
            obtain ⟨e, he, hpre, hlen⟩ := ih _ _ q (by omega) hq2
            rcases List.mem_append.mp he with he | he
            · obtain ⟨p, _, rfl⟩ := List.mem_map.mp he
              refine ⟨(rsegs, FTree.node dirs files), by simp, ?_, ?_⟩
              · exact (List.prefix_append rsegs [p.1]).trans hpre
              · show rsegs.length < q.length
                simp only [List.length_append, List.length_cons,
                  List.length_nil] at hlen
                omega
            · exact ⟨e, by simp [he], hpre, hlen⟩
          rcases hq with (hq | hq) | (hq | hq) | (hq | hq)
          · exact hlevel (Or.inl hq)
          · exact hrec (Or.inl hq)
          · exact hlevel (Or.inr (Or.inl hq))
          · exact hrec (Or.inr (Or.inl hq))
          · exact hlevel (Or.inr (Or.inr hq))
          · exact hrec (Or.inr (Or.inr hq))
        · simp only [herr] at hq
          refine ⟨(rsegs, FTree.node dirs files), by simp, ?_⟩
          rcases hq with hq | hq | hq
          · obtain ⟨name, _, rfl⟩ := process_files_calls_shape fs hook src ig
              rsegs _ _ q hq
            exact ⟨List.prefix_append rsegs [name], by simp⟩
          · rcases hany : rules.any (fun r => r.type = some RuleType.dir) with
              _ | _ <;> rw [hany] at hq
            · simp at hq
            · obtain ⟨name, _, rfl⟩ := List.mem_map.mp hq
              exact ⟨List.prefix_append rsegs [name], by simp⟩
          · obtain ⟨name, _, rfl⟩ := List.mem_map.mp hq
            exact ⟨List.prefix_append rsegs [name], by simp⟩

theorem prefix_snoc_of_le {α : Type} {x y : List α} {z : α}
    (h : x <+: y ++ [z]) (hl : x.length ≤ y.length) : x <+: y :=
  List.prefix_of_prefix_length_le h (List.prefix_append y [z]) hl

theorem sortStrings_nodup {l : List String} (h : l.Nodup) :
    (sortStrings l).Nodup :=
  (sortStrings_perm l).nodup_iff.mpr h

theorem stackInv_tail {e : List String × FTree}
    {rest : List (List String × FTree)} (h : stackInv (e :: rest)) :
    stackInv rest :=
  (List.pairwise_cons.mp h).2

theorem stackInv_children (rsegs : List String)
    (dirs : List (String × FTree)) (files : List String)
    (rest : List (List String × FTree)) (q : String × FTree → Bool)
    (hinv : stackInv ((rsegs, FTree.node dirs files) :: rest))
    (hnd : (dirs.map Prod.fst).Nodup) :
    stackInv ((((sortPairs dirs).filter q).map
      (fun p => (rsegs ++ [p.1], p.2))) ++ rest) := by
  have hndf : (((sortPairs dirs).filter q).map Prod.fst).Nodup := by
    have hperm : ((sortPairs dirs).map Prod.fst).Perm (dirs.map Prod.fst) :=
      (List.perm_insertionSort _ dirs).map _
    have hnd2 : ((sortPairs dirs).map Prod.fst).Nodup :=
      hperm.nodup_iff.mpr hnd
    exact List.Nodup.sublist (List.Sublist.map _ (List.filter_sublist _)) hnd2
  have hhead := (List.pairwise_cons.mp hinv).1
  rw [stackInv, List.pairwise_append]
  refine ⟨?_, stackInv_tail hinv, ?_⟩
  · rw [List.pairwise_map]
    have hpw : (((sortPairs dirs).filter q)).Pairwise
        (fun p1 p2 => p1.1 ≠ p2.1) := by
      have := (List.pairwise_map (l := (sortPairs dirs).filter q)
        (f := Prod.fst) (R := fun a b => a ≠ b)).mp hndf
      exact this
    refine hpw.imp ?_
    intro p1 p2 hne
    constructor
    · intro hpre
      have := List.IsPrefix.eq_of_length hpre (by simp)
      exact hne (by simpa using List.append_cancel_left this)
    · intro hpre
      have := List.IsPrefix.eq_of_length hpre (by simp)
      exact hne (by simpa using (List.append_cancel_left this).symm)
  · intro a ha b hb
    obtain ⟨p, _, rfl⟩ := List.mem_map.mp ha
    have hrel := hhead b hb
    constructor
    · intro hpre
      exact hrel.1 ((List.prefix_append rsegs [p.1]).trans hpre)
    · intro hpre
      rcases le_or_lt b.1.length rsegs.length with hl | hl
      · exact hrel.2 (prefix_snoc_of_le hpre hl)
      · have hle : b.1.length = rsegs.length + 1 := by
          have := hpre.length_le
          simp only [List.length_append, List.length_cons,
            List.length_nil] at this
          omega
        have := List.IsPrefix.eq_of_length hpre (by simp [hle])
        apply hrel.1
        rw [this]
        exact List.prefix_append rsegs [p.1]

theorem walk_no_descend (fs : FS) (hook : Nat → Bool) (src : String)
    (ig : List String) :
    ∀ (n : Nat) (st : List (List String × FTree))
      (rules : List FileSelectRule),
      stackMeasure st ≤ n →
      stackInv st → (∀ e ∈ st, FTree.wfNames e.2) →
      ∀ p, p ∈ (copytree_walk fs hook src ig st rules).pruned_dirs →
      ∀ q, (q ∈ (copytree_walk fs hook src ig st rules).select_calls ∨
            q ∈ (copytree_walk fs hook src ig st rules).tested_dirs) →
        ¬ (p <+: q ∧ p.length < q.length) := by
  intro n
  induction n with
  | zero =>
    intro st rules hm hinv hwf p hp q hq
    cases st with
    | nil =>
      rw [copytree_walk] at hp
      simp at hp
    | cons head rest =>
      exfalso
      obtain ⟨rsegs, tree⟩ := head
      cases tree with
      | node dirs files =>
        have h1 : FTree.size (FTree.node dirs files) = 1 + sizeDirs dirs := by
          rw [FTree.size]
        have h2 : stackMeasure ((rsegs, FTree.node dirs files) :: rest) =
            FTree.size (FTree.node dirs files) + stackMeasure rest := by
          simp [stackMeasure]
        omega
  | succ n ih =>
    intro st rules hm hinv hwf p hp q hq
    cases st with
    | nil =>
      rw [copytree_walk] at hp
      simp at hp
    | cons head rest =>
      obtain ⟨rsegs, tree⟩ := head
      cases tree with
      | node dirs files =>
        have hw : (dirs.map Prod.fst).Nodup ∧
            ∀ pr ∈ dirs, FTree.wfNames pr.2 := by
          have := hwf (rsegs, FTree.node dirs files) (by simp)
          rwa [FTree.wfNames] at this
        have hdnamesnd : (sortStrings (dirs.map Prod.fst)).Nodup :=
          sortStrings_nodup hw.1
        rw [copytree_walk] at hp hq
        rcases herr : (process_files fs hook src ig rsegs (sortStrings files)
            (FileSelect.prune_dirs fs src (renderSegs rsegs)
              (sortStrings (dirs.map Prod.fst)) rules).2.2).err with _ | e0
        · -- no copy error: level output plus recursion into children ++ rest
          simp only [herr, List.mem_append] at hp hq
          -- handle the four p-source / q-source combinations
          rcases hp with hp | hp
          · -- p pruned at this level
            obtain ⟨np, hnp, rfl⟩ := List.mem_map.mp hp
            rcases hq with (hq | hq) | (hq | hq)
            · -- q is a select call at this level
              obtain ⟨nq, _, rfl⟩ := process_files_calls_shape fs hook src ig
                rsegs _ _ q hq
              rintro ⟨-, hlen⟩
              simp at hlen
            · -- q from the recursive walk
              obtain ⟨e, he, hpre, hlen⟩ := walk_paths_prefix fs hook src ig n
                _ _ q (by
                  have := stackMeasure_children_lt rsegs dirs files rest
                    (fun pr => (FileSelect.prune_dirs fs src (renderSegs rsegs)
                      (sortStrings (dirs.map Prod.fst)) rules).2.1.contains pr.1)
                  omega) (Or.inl hq)
              rintro ⟨hpq, hplen⟩
              rcases List.mem_append.mp he with he | he
              · obtain ⟨pr0, hpr0, rfl⟩ := List.mem_map.mp he
                have heq : rsegs ++ [np] = (rsegs ++ [pr0.1], pr0.2).1 := by
                  refine List.IsPrefix.eq_of_length
                    (List.prefix_of_prefix_length_le hpq hpre (by simp)) ?_
                  simp
                have hnp' : np = pr0.1 := by
                  simpa using List.append_cancel_left heq
                have hmem : pr0.1 ∈ (FileSelect.prune_dirs fs src
                    (renderSegs rsegs) (sortStrings (dirs.map Prod.fst))
                    rules).2.1 := by
                  have := (List.mem_filter.mp hpr0).2
                  simpa using this
                exact prune_dirs_disjoint fs src (renderSegs rsegs)
                  (sortStrings (dirs.map Prod.fst)) rules hdnamesnd np hnp
                  (hnp' ▸ hmem)
              · have hrel := (List.pairwise_cons.mp hinv).1 e he
                rcases le_or_lt e.1.length rsegs.length with hl | hl
                · have h1 : e.1 <+: rsegs ++ [np] :=
                    List.prefix_of_prefix_length_le hpre hpq
                      (by simp; omega)
                  exact hrel.2 (prefix_snoc_of_le h1 hl)
                · have h1 : rsegs ++ [np] <+: e.1 :=
                    List.prefix_of_prefix_length_le hpq hpre
                      (by simp; omega)
                  exact hrel.1 ((List.prefix_append rsegs [np]).trans h1)
            · -- q tested at this level
              rcases hany : rules.any (fun r => r.type = some RuleType.dir) with
                _ | _ <;> rw [hany] at hq
              · simp at hq
              · obtain ⟨nq, _, rfl⟩ := List.mem_map.mp hq
                rintro ⟨-, hlen⟩
                simp at hlen
            · -- q tested in the recursive walk
              obtain ⟨e, he, hpre, hlen⟩ := walk_paths_prefix fs hook src ig n
                _ _ q (by
                  have := stackMeasure_children_lt rsegs dirs files rest
                    (fun pr => (FileSelect.prune_dirs fs src (renderSegs rsegs)
                      (sortStrings (dirs.map Prod.fst)) rules).2.1.contains pr.1)
                  omega) (Or.inr (Or.inl hq))
              rintro ⟨hpq, hplen⟩
              rcases List.mem_append.mp he with he | he
              · obtain ⟨pr0, hpr0, rfl⟩ := List.mem_map.mp he
                have heq : rsegs ++ [np] = (rsegs ++ [pr0.1], pr0.2).1 := by
                  refine List.IsPrefix.eq_of_length
                    (List.prefix_of_prefix_length_le hpq hpre (by simp)) ?_
                  simp
                have hnp' : np = pr0.1 := by
                  simpa using List.append_cancel_left heq
                have hmem : pr0.1 ∈ (FileSelect.prune_dirs fs src
                    (renderSegs rsegs) (sortStrings (dirs.map Prod.fst))
                    rules).2.1 := by
                  have := (List.mem_filter.mp hpr0).2
                  simpa using this
                exact prune_dirs_disjoint fs src (renderSegs rsegs)
                  (sortStrings (dirs.map Prod.fst)) rules hdnamesnd np hnp
                  (hnp' ▸ hmem)
              · have hrel := (List.pairwise_cons.mp hinv).1 e he
                rcases le_or_lt e.1.length rsegs.length with hl | hl
                · have h1 : e.1 <+: rsegs ++ [np] :=
                    List.prefix_of_prefix_length_le hpre hpq
                      (by simp; omega)
                  exact hrel.2 (prefix_snoc_of_le h1 hl)
                · have h1 : rsegs ++ [np] <+: e.1 :=
                    List.prefix_of_prefix_length_le hpq hpre
                      (by simp; omega)
                  exact hrel.1 ((List.prefix_append rsegs [np]).trans h1)
          · -- p pruned inside the recursive walk
            have hmlt := stackMeasure_children_lt rsegs dirs files rest
              (fun pr => (FileSelect.prune_dirs fs src (renderSegs rsegs)
                (sortStrings (dirs.map Prod.fst)) rules).2.1.contains pr.1)
            have hinv' := stackInv_children rsegs dirs files rest
              (fun pr => (FileSelect.prune_dirs fs src (renderSegs rsegs)
                (sortStrings (dirs.map Prod.fst)) rules).2.1.contains pr.1)
              hinv hw.1
            have hwf' : ∀ e ∈ (((sortPairs dirs).filter
                (fun pr => (FileSelect.prune_dirs fs src (renderSegs rsegs)
                  (sortStrings (dirs.map Prod.fst)) rules).2.1.contains
                  pr.1)).map (fun pr => (rsegs ++ [pr.1], pr.2))) ++ rest,
                FTree.wfNames e.2 := by
              intro e he
              rcases List.mem_append.mp he with he | he
              · obtain ⟨pr0, hpr0, rfl⟩ := List.mem_map.mp he
                have : pr0 ∈ dirs := by
                  have h1 : pr0 ∈ sortPairs dirs :=
                    List.mem_of_mem_filter hpr0
                  exact (List.perm_insertionSort _ dirs).mem_iff.mp h1
                exact hw.2 pr0 this
              · exact hwf e (by simp [he])
            have hprec : ∀ e1 ∈ (copytree_walk fs hook src ig
                ((((sortPairs dirs).filter (fun pr =>
                  (FileSelect.prune_dirs fs src (renderSegs rsegs)
                    (sortStrings (dirs.map Prod.fst)) rules).2.1.contains
                  pr.1)).map (fun pr => (rsegs ++ [pr.1], pr.2))) ++ rest)
                (process_files fs hook src ig rsegs (sortStrings files)
                  (FileSelect.prune_dirs fs src (renderSegs rsegs)
                    (sortStrings (dirs.map Prod.fst)) rules).2.2).rules).pruned_dirs,
                ∃ e ∈ (((sortPairs dirs).filter (fun pr =>
                  (FileSelect.prune_dirs fs src (renderSegs rsegs)
                    (sortStrings (dirs.map Prod.fst)) rules).2.1.contains
                  pr.1)).map (fun pr => (rsegs ++ [pr.1], pr.2))) ++ rest,
                  e.1 <+: e1 ∧ e.1.length < e1.length := by
              intro e1 he1
              exact walk_paths_prefix fs hook src ig n _ _ e1 (by omega)
                (Or.inr (Or.inr he1))
            rcases hq with (hq | hq) | (hq | hq)
            · -- q select call at this level; p is deeper
              obtain ⟨nq, _, rfl⟩ := process_files_calls_shape fs hook src ig
                rsegs _ _ q hq
              rintro ⟨hpq, hplen⟩
              obtain ⟨e, he, hpree, hlene⟩ := hprec p hp
              have hel : e.1.length < rsegs.length := by
                simp only [List.length_append, List.length_cons,
                  List.length_nil] at hplen
                omega
              have h1 : e.1 <+: rsegs ++ [nq] := hpree.trans hpq
              have h2 : e.1 <+: rsegs := prefix_snoc_of_le h1 (by omega)
              rcases List.mem_append.mp he with he | he
              · obtain ⟨pr0, _, rfl⟩ := List.mem_map.mp he
                simp only [List.length_append, List.length_cons,
                  List.length_nil] at hel
                omega
              · exact (List.pairwise_cons.mp hinv).1 e he |>.2 h2
            · -- q in recursive walk; p deeper: use ih
              exact ih _ _ (by omega) hinv' hwf' p hp q (Or.inl hq)
            · -- q tested at this level
              rcases hany : rules.any (fun r => r.type = some RuleType.dir) with
                _ | _ <;> rw [hany] at hq
              · simp at hq
              · obtain ⟨nq, _, rfl⟩ := List.mem_map.mp hq
                rintro ⟨hpq, hplen⟩
                obtain ⟨e, he, hpree, hlene⟩ := hprec p hp
                have hel : e.1.length < rsegs.length := by
                  simp only [List.length_append, List.length_cons,
                    List.length_nil] at hplen
                  omega
                have h1 : e.1 <+: rsegs ++ [nq] := hpree.trans hpq
                have h2 : e.1 <+: rsegs := prefix_snoc_of_le h1 (by omega)
                rcases List.mem_append.mp he with he | he
                · obtain ⟨pr0, _, rfl⟩ := List.mem_map.mp he
                  simp only [List.length_append, List.length_cons,
                    List.length_nil] at hel
                  omega
                · exact (List.pairwise_cons.mp hinv).1 e he |>.2 h2
            · -- q tested in recursive walk
              exact ih _ _ (by omega) hinv' hwf' p hp q (Or.inr hq)
        · -- copy error at this level: no recursion at all
          simp only [herr] at hp hq
          obtain ⟨np, hnp, rfl⟩ := List.mem_map.mp hp
          rcases hq with hq | hq
          · obtain ⟨nq, _, rfl⟩ := process_files_calls_shape fs hook src ig
              rsegs _ _ q hq
            rintro ⟨-, hlen⟩
            simp at hlen
          · rcases hany : rules.any (fun r => r.type = some RuleType.dir) with
              _ | _ <;> rw [hany] at hq
            · simp at hq
            · obtain ⟨nq, _, rfl⟩ := List.mem_map.mp hq
              rintro ⟨-, hlen⟩
              simp at hlen

theorem walk_pruned_reported (fs : FS) (hook : Nat → Bool) (src : String)
    (ig : List String) :
    ∀ (n : Nat) (st : List (List String × FTree))
      (rules : List FileSelectRule),
      stackMeasure st ≤ n →
      ∀ p ∈ (copytree_walk fs hook src ig st rules).pruned_dirs,
        CopyEvent.ignore p ∈ (copytree_walk fs hook src ig st rules).events := by
  intro n
  induction n with
  | zero =>
    intro st rules hm p hp
    cases st with
    | nil =>
      rw [copytree_walk] at hp
      simp at hp
    | cons head rest =>
      exfalso
      obtain ⟨rsegs, tree⟩ := head
      cases tree with
      | node dirs files =>
        have h1 : FTree.size (FTree.node dirs files) = 1 + sizeDirs dirs := by
          rw [FTree.size]
        have h2 : stackMeasure ((rsegs, FTree.node dirs files) :: rest) =
            FTree.size (FTree.node dirs files) + stackMeasure rest := by
          simp [stackMeasure]
        omega
  | succ n ih =>
    intro st rules hm p hp
    cases st with
    | nil =>
      rw [copytree_walk] at hp
      simp at hp
    | cons head rest =>
      obtain ⟨rsegs, tree⟩ := head
      cases tree with
      | node dirs files =>
        rw [copytree_walk] at hp ⊢
        rcases herr : (process_files fs hook src ig rsegs (sortStrings files)
            (FileSelect.prune_dirs fs src (renderSegs rsegs)
              (sortStrings (dirs.map Prod.fst)) rules).2.2).err with _ | e0
        · simp only [herr, List.mem_append] at hp ⊢
          rcases hp with hp | hp
          · exact Or.inl (Or.inl (List.mem_map_of_mem _ hp))
          · have hmlt := stackMeasure_children_lt rsegs dirs files rest
              (fun pr => (FileSelect.prune_dirs fs src (renderSegs rsegs)
                (sortStrings (dirs.map Prod.fst)) rules).2.1.contains pr.1)
            exact Or.inr (ih _ _ (by omega) p hp)
        · simp only [herr, List.mem_append] at hp ⊢
          exact Or.inl (List.mem_map_of_mem _ hp)

/-- Claim C6: `prune_dirs` processes the child names in sorted order (the
pruned list is a sorted sublist of the sorted names), applies only
directory-typed rules with the same last-wins reduction (for rule sets whose
directory rules carry no match cap, pruning is exactly the filter by the pure
last-wins decision being an explicit exclude), removes pruned names from
descent (a pruned name is no longer in the surviving `dirs` list), reports
each pruned directory through the handler's `ignore` callback, and is
absolute: nothing strictly under a pruned directory is ever passed to
`select_file` or tested by a directory rule anywhere in the walk. -/
theorem c6_prune_dirs (fs : FS) (hook : Nat → Bool) (src relroot : String)
    (dirs : List String) (rules : List FileSelectRule) :
    ((∀ r ∈ rules, r.type = some RuleType.dir → r.max_matches = none) →
      (FileSelect.prune_dirs fs src relroot dirs rules).1 =
        (sortStrings dirs).filter
          (fun n => prune_decision fs src (os_path_join relroot n) rules =
            some false)) ∧
    (FileSelect.prune_dirs fs src relroot dirs rules).1.Sublist
      (sortStrings dirs) ∧
    List.Sorted (fun a b => strLe a b = true)
      (FileSelect.prune_dirs fs src relroot dirs rules).1 ∧
    (dirs.Nodup → ∀ nm ∈ (FileSelect.prune_dirs fs src relroot dirs rules).1,
      nm ∉ (FileSelect.prune_dirs fs src relroot dirs rules).2.1) ∧
    (∀ (ig : List String) (sel : FileSelect) (tree : FTree),
      FTree.wfNames tree →
      ∀ p ∈ (_copytree_impl fs hook src ig sel tree).pruned_dirs,
        CopyEvent.ignore p ∈ (_copytree_impl fs hook src ig sel tree).events ∧
        ∀ q, (q ∈ (_copytree_impl fs hook src ig sel tree).select_calls ∨
              q ∈ (_copytree_impl fs hook src ig sel tree).tested_dirs) →
          ¬ (p <+: q ∧ p.length < q.length)) := by
  refine ⟨?_, (prune_dirs_sorted_sublist fs src relroot dirs rules).1,
    (prune_dirs_sorted_sublist fs src relroot dirs rules).2,
    prune_dirs_disjoint fs src relroot dirs rules, ?_⟩
  · intro hmm
    exact prune_dirs_spec fs src relroot dirs rules hmm
  · intro ig sel tree hwft p hp
    unfold _copytree_impl at hp ⊢
    by_cases hdis : sel.disabled
    · simp [hdis] at hp
    · simp only [hdis, Bool.false_eq_true, if_false] at hp ⊢
      have hwfall : ∀ e ∈ [(([] : List String), tree)], FTree.wfNames e.2 := by
        intro e he
        simp at he
        rw [he]
        exact hwft
      constructor
      · exact walk_pruned_reported fs hook src ig
          (stackMeasure [([], tree)]) _ _ le_rfl p hp
      · intro q hq
        exact walk_no_descend fs hook src ig (stackMeasure [([], tree)]) _ _
          le_rfl (List.pairwise_singleton _ _) hwfall p hp q hq

theorem c6_witness :
    ((FileSelect.prune_dirs fsDirs "/s" "" ["srcd", "build"] rulesB).1 =
      (sortStrings ["srcd", "build"]).filter
        (fun n => prune_decision fsDirs "/s" (os_path_join "" n) rulesB =
          some false)) ∧
    (∀ nm ∈ (FileSelect.prune_dirs fsDirs "/s" "" ["srcd", "build"] rulesB).1,
      nm ∉ (FileSelect.prune_dirs fsDirs "/s" "" ["srcd", "build"] rulesB).2.1) ∧
    (∀ p ∈ (_copytree_impl fsDirs (fun _ => false) "/s" []
        ⟨none, rulesB⟩ treeB).pruned_dirs,
      CopyEvent.ignore p ∈ (_copytree_impl fsDirs (fun _ => false) "/s" []
        ⟨none, rulesB⟩ treeB).events ∧
      ∀ q, (q ∈ (_copytree_impl fsDirs (fun _ => false) "/s" []
              ⟨none, rulesB⟩ treeB).select_calls ∨
            q ∈ (_copytree_impl fsDirs (fun _ => false) "/s" []
              ⟨none, rulesB⟩ treeB).tested_dirs) →
        ¬ (p <+: q ∧ p.length < q.length)) := by
  have hwft : FTree.wfNames treeB := by
    rw [treeB, FTree.wfNames]
    refine ⟨by decide, ?_⟩
    intro pr hpr
    simp only [List.mem_cons, List.mem_singleton] at hpr
    rcases hpr with rfl | rfl | hpr
    · show FTree.wfNames (FTree.node [] ["bx.txt"])
      rw [FTree.wfNames]
      exact ⟨by decide, by intro pr2 hpr2; simp at hpr2⟩
    · show FTree.wfNames (FTree.node [] ["a.txt"])
      rw [FTree.wfNames]
      exact ⟨by decide, by intro pr2 hpr2; simp at hpr2⟩
    · exact absurd hpr (by simp)
  refine ⟨(c6_prune_dirs fsDirs (fun _ => false) "/s" ""
      ["srcd", "build"] rulesB).1 (by decide),
    (c6_prune_dirs fsDirs (fun _ => false) "/s" ""
      ["srcd", "build"] rulesB).2.2.2.1 (by decide),
    fun p hp => (c6_prune_dirs fsDirs (fun _ => false) "/s" ""
      ["srcd", "build"] rulesB).2.2.2.2 [] ⟨none, rulesB⟩ treeB hwft p hp⟩
